import Mathlib

/-!
Verification of the DSRTOS dynamic compilation fixer
(source file `PY/dsrtos_dynamic_fixer.py`).

Build outputs and file contents are modelled as `List Char`.  The regular
expressions used by the source are embedded as executable scanners whose
behaviour coincides with Python `re` semantics on the concrete patterns in
question: every pattern used by the program is a literal prefix, followed by
a non-empty greedy capture of characters excluding a single delimiter, the
delimiter, and a literal suffix — for such patterns backtracking is
deterministic, so a direct scan is an exact model.  Side effects (writing
files, logging, subprocess calls) are modelled by explicit state passing:
the external build tool is an oracle sequence of outcomes, and the on-disk
files are lists of character lists.
-/

/-- Single quote character, built numerically so the development stays plain. -/
def sqc : Char := Char.ofNat 39

/-- Backtick character. -/
def btc : Char := Char.ofNat 96

/-- Double quote character. -/
def dqc : Char := Char.ofNat 34

/-- Python `\s` over the ASCII range: space, tab, newline, carriage return,
vertical tab, form feed. -/
def pyWs (c : Char) : Bool :=
  c = ' ' || c = '\t' || c = '\n' || c = '\r' || c = '\x0b' || c = '\x0c'

/-- Remove a literal leading pattern: `chopPre p l = some r` iff `l = p ++ r`. -/
def chopPre : List Char → List Char → Option (List Char)
  | [], l => some l
  | _ :: _, [] => none
  | p :: ps, c :: cs => if p = c then chopPre ps cs else none

theorem chopPre_eq_append {p l r : List Char} (h : chopPre p l = some r) :
    l = p ++ r := by
  induction p generalizing l with
  | nil =>
    simp only [chopPre, Option.some.injEq] at h
    simp [h]
  | cons x xs ih =>
    cases l with
    | nil => simp [chopPre] at h
    | cons c cs =>
      by_cases hx : x = c
      · subst hx
        simp only [chopPre, if_pos rfl] at h
        simpa using ih h
      · simp [chopPre, hx] at h

theorem chopPre_length_le {p l r : List Char} (h : chopPre p l = some r) :
    r.length ≤ l.length := by
  have := chopPre_eq_append h
  subst this
  simp

theorem chopPre_cons_length_lt {x : Char} {xs l r : List Char}
    (h : chopPre (x :: xs) l = some r) : r.length < l.length := by
  have := chopPre_eq_append h
  subst this
  simp
  omega

theorem chopPre_append_self (p r : List Char) : chopPre p (p ++ r) = some r := by
  induction p with
  | nil => simp [chopPre]
  | cons x xs ih => simp [chopPre, ih]

/-- Python substring test (`needle in haystack`). -/
def containsSub (s : List Char) (l : List Char) : Bool :=
  match l with
  | [] => s.isEmpty
  | c :: rest => s.isPrefixOf (c :: rest) || containsSub s rest

/-- Number of (possibly overlapping) starting positions of `s` inside `l`;
the "reference count" of a path inside a manifest. -/
def countSub (s : List Char) (l : List Char) : Nat :=
  match l with
  | [] => 0
  | c :: rest => (if s.isPrefixOf (c :: rest) then 1 else 0) + countSub s rest

/-! ## The build driver (`get_compilation_output`) -/

/-- Outcome of invoking the external build tool: either the subprocess ran and
produced a return code together with its standard and error output, or the
invocation itself raised an exception carrying a description. -/
inductive BuildOutcome where
  | ran (rc : Int) (out err : List Char)
  | raised (msg : List Char)
deriving DecidableEq

/-- `get_compilation_output`: returns `(returncode == 0, stdout + stderr)` on a
normal run and `(False, str(e))` when the invocation raises. -/
def get_compilation_output : BuildOutcome → Bool × List Char
  | .ran rc out err => (rc == 0, out ++ err)
  | .raised msg => (false, msg)

/-! ## The diagnostic trigger conditions of the convergence loop -/

/-- One regex-findall step: try to match literal prefix `pre`, then a
non-empty run of characters different from `d` (the capture), then `d`
followed by the literal suffix `suf`.  Returns the capture and the remainder
after the match.  This is exactly Python `re` behaviour for patterns of shape
`pre([^d]+)d suf`: the capture class excludes `d`, so backtracking cannot
shorten the greedy run. -/
def matchAt (pre : List Char) (d : Char) (suf : List Char) (l : List Char) :
    Option (List Char × List Char) :=
  match chopPre pre l with
  | none => none
  | some r1 =>
    match chopPre (d :: suf) (r1.dropWhile (fun c => c != d)) with
    | none => none
    | some r3 =>
      if (r1.takeWhile (fun c => c != d)).isEmpty then none
      else some (r1.takeWhile (fun c => c != d), r3)

theorem matchAt_length_lt {pre : List Char} {d : Char} {suf l cap r : List Char}
    (h : matchAt pre d suf l = some (cap, r)) : r.length < l.length := by
  unfold matchAt at h
  split at h
  · exact absurd h (by simp)
  · rename_i r1 h1
    split at h
    · exact absurd h (by simp)
    · rename_i r3 h2
      split at h
      · exact absurd h (by simp)
      · have hp := Option.some.inj h
        have h3 : r3 = r := congrArg Prod.snd hp
        have hlt : r3.length < (r1.dropWhile (fun c => c != d)).length :=
          chopPre_cons_length_lt h2
        have hdw : (r1.dropWhile (fun c => c != d)).length ≤ r1.length :=
          (r1.dropWhile_sublist (p := fun c => c != d)).length_le
        have hr1 : r1.length ≤ l.length := chopPre_length_le h1
        rw [← h3]
        omega

/-- Fuelled scanner for `reFindall`; one unit of fuel is spent per character
position or match, so fuel `l.length` always suffices
(`matchAt_length_lt`). -/
def reFindallAux (pre : List Char) (d : Char) (suf : List Char) :
    Nat → List Char → List (List Char)
  | 0, _ => []
  | _ + 1, [] => []
  | fuel + 1, c :: rest =>
    match matchAt pre d suf (c :: rest) with
    | some (cap, r) => cap :: reFindallAux pre d suf fuel r
    | none => reFindallAux pre d suf fuel rest

/-- All captures of the pattern in scanning order (Python `re.findall` for the
pattern shape described at `matchAt`): scan character positions left to
right, on a match record the capture and resume after the match. -/
def reFindall (pre : List Char) (d : Char) (suf : List Char) (l : List Char) :
    List (List Char) :=
  reFindallAux pre d suf l.length l

/-- Captures of `No rule to make target '([^']+)'`. -/
def findMissingRules (out : List Char) : List (List Char) :=
  reFindall ("No rule to make target ".data ++ [sqc]) sqc [] out

/-- Captures of `'([^']+)' undeclared here \(not in a function\)`. -/
def findUndeclaredHere (out : List Char) : List (List Char) :=
  reFindall [sqc] sqc " undeclared here (not in a function)".data out

/-- Captures of `'([^']+)' undeclared \(first use in this function\)`. -/
def findUndeclaredFirstUse (out : List Char) : List (List Char) :=
  reFindall [sqc] sqc " undeclared (first use in this function)".data out

/-- Captures of `multiple definition of ` followed by a backtick-quoted name. -/
def findMultipleDefs (out : List Char) : List (List Char) :=
  reFindall ("multiple definition of ".data ++ [btc]) sqc [] out

/-- Captures of `undefined reference to ` followed by a backtick-quoted name. -/
def findUndefinedRefs (out : List Char) : List (List Char) :=
  reFindall ("undefined reference to ".data ++ [btc]) sqc [] out

/-- Captures of `'([^']+)' undeclared`. -/
def findUndeclaredIds (out : List Char) : List (List Char) :=
  reFindall [sqc] sqc " undeclared".data out

/-- Captures of `"([^"]+)" redefined`. -/
def findRedefined (out : List Char) : List (List Char) :=
  reFindall [dqc] dqc " redefined".data out

/-- Python `str.isupper` over ASCII: at least one cased character and every
cased character uppercase. -/
def pyIsUpper (s : List Char) : Bool :=
  s.any (fun c => c.isAlpha) && s.all (fun c => !c.isAlpha || c.isUpper)

/-- The undeclared identifiers that the loop treats as missing constants:
those starting with `DSRTOS_` and satisfying `isupper`. -/
def constantsOf (out : List Char) : List (List Char) :=
  (findUndeclaredIds out).filter
    (fun id => "DSRTOS_".data.isPrefixOf id && pyIsUpper id)

/-- Trigger of fix 1: `"No rule to make target" in output`. -/
def gateMissingRule (out : List Char) : Bool :=
  containsSub "No rule to make target".data out

/-- Trigger of fix 2: `"undeclared here (not in a function)" in output`. -/
def gateUndeclaredHere (out : List Char) : Bool :=
  containsSub "undeclared here (not in a function)".data out

/-- Trigger of fix 3: `"multiple definition" in output`. -/
def gateMultipleDef (out : List Char) : Bool :=
  containsSub "multiple definition".data out

/-- Trigger of fix 4: the undefined-reference findall is non-empty. -/
def gateUndefinedRef (out : List Char) : Bool :=
  !(findUndefinedRefs out).isEmpty

/-- Trigger of fix 5: some undeclared identifier passes the constant filter. -/
def gateConstants (out : List Char) : Bool :=
  !(constantsOf out).isEmpty

/-- Trigger of fix 6: the redefined-macro findall is non-empty. -/
def gateRedefined (out : List Char) : Bool :=
  !(findRedefined out).isEmpty

/-- `fixes_applied` for one round: one increment per trigger that fires. -/
def fixesApplied (out : List Char) : Nat :=
  (if gateMissingRule out then 1 else 0) +
  (if gateUndeclaredHere out then 1 else 0) +
  (if gateMultipleDef out then 1 else 0) +
  (if gateUndefinedRef out then 1 else 0) +
  (if gateConstants out then 1 else 0) +
  (if gateRedefined out then 1 else 0)

/-- Whether the output matches at least one of the six diagnostic extraction
patterns of the classifier (the two undeclared-symbol patterns count for the
undeclared-symbol kind; the undeclared-constant kind applies its name
filter). -/
def matchesAnyDiagnostic (out : List Char) : Bool :=
  !(findMissingRules out).isEmpty ||
  !(findUndeclaredHere out).isEmpty ||
  !(findUndeclaredFirstUse out).isEmpty ||
  !(findMultipleDefs out).isEmpty ||
  !(findUndefinedRefs out).isEmpty ||
  !(constantsOf out).isEmpty ||
  !(findRedefined out).isEmpty

/-! ## The convergence loop (`run_dynamic_fix`)

The loop is modelled with the external build tool as an oracle
`build : Nat → Bool × List Char` giving the success flag and combined output
of the compilation attempt in each round (the side-effecting synthesizer
calls do not influence the loop's control flow except through
`fixesApplied`, which is a pure function of the round's output).  The result
is the returned boolean together with the index of the last round that
ran. -/

def loopFrom (build : Nat → Bool × List Char) : Nat → Nat → Bool × Nat
  | iter, 0 => (false, iter - 1)
  | iter, fuel + 1 =>
    let r := build iter
    if r.1 then (true, iter)
    else if fixesApplied r.2 = 0 then (false, iter)
    else loopFrom build (iter + 1) fuel

/-- `run_dynamic_fix`: `for iteration in range(1, 8)` with early return on a
successful build and early break when no fixes were applied. -/
def run_dynamic_fix (build : Nat → Bool × List Char) : Bool × Nat :=
  loopFrom build 1 7

theorem loopFrom_spec (build : Nat → Bool × List Char) (fuel start : Nat)
    (hf : 1 ≤ fuel) :
    ∃ r, start ≤ r ∧ r ≤ start + fuel - 1 ∧
      loopFrom build start fuel = ((build r).1, r) ∧
      (∀ j, start ≤ j → j < r →
        (build j).1 = false ∧ fixesApplied (build j).2 ≠ 0) ∧
      ((build r).1 = false → fixesApplied (build r).2 = 0 ∨ r = start + fuel - 1) := by
  induction fuel generalizing start with
  | zero => omega
  | succ f ih =>
    by_cases hs : (build start).1
    · refine ⟨start, le_refl _, by omega, ?_, ?_, ?_⟩
      · simp [loopFrom, hs]
      · intro j h1 h2; omega
      · intro h; rw [h] at hs; simp at hs
    · have hs' : (build start).1 = false := by
        simpa using hs
      by_cases hz : fixesApplied (build start).2 = 0
      · refine ⟨start, le_refl _, by omega, ?_, ?_, ?_⟩
        · simp [loopFrom, hs', hz]
        · intro j h1 h2; omega
        · intro _; exact Or.inl hz
      · cases f with
        | zero =>
          refine ⟨start, le_refl _, by omega, ?_, ?_, ?_⟩
          · simp [loopFrom, hs', hz]
          · intro j h1 h2; omega
          · intro _; right; omega
        | succ f' =>
          obtain ⟨r, hr1, hr2, hr3, hr4, hr5⟩ := ih (start + 1) (by omega)
          refine ⟨r, by omega, by omega, ?_, ?_, ?_⟩
          · simp only [loopFrom, hs', Bool.false_eq_true, if_false, hz, if_neg hz]
            exact hr3
          · intro j h1 h2
            rcases Nat.eq_or_lt_of_le h1 with h | h
            · subst h
              exact ⟨hs', hz⟩
            · exact hr4 j (by omega) h2
          · intro h
            rcases hr5 h with h' | h'
            · exact Or.inl h'
            · right; omega

/-! ## Claim theorems for the loop and driver -/

/-- C1: every execution of `run_dynamic_fix` terminates within at most 7
rounds: there is a round `r` with `1 ≤ r ≤ 7` such that the loop returns the
success flag of round `r`'s build; every earlier round had a failing build
with a non-zero fix counter (so the loop returned `True` as soon as a build
succeeded), and if round `r`'s build failed the loop stopped either because
the fix counter was zero in round `r` or because `r` was the 7th and last
round. -/
theorem c1_loop_terminates_within_bound (build : Nat → Bool × List Char) :
    ∃ r, 1 ≤ r ∧ r ≤ 7 ∧
      run_dynamic_fix build = ((build r).1, r) ∧
      (∀ j, 1 ≤ j → j < r →
        (build j).1 = false ∧ fixesApplied (build j).2 ≠ 0) ∧
      ((build r).1 = false → fixesApplied (build r).2 = 0 ∨ r = 7) := by
  obtain ⟨r, h1, h2, h3, h4, h5⟩ := loopFrom_spec build 7 1 (by omega)
  exact ⟨r, h1, by omega, h3, h4, by simpa using h5⟩

/-- C7: the build driver never propagates an exception: an invocation failure
yields the success flag `false` with the failure description as output text,
a normal completion yields the flag `returncode == 0` together with the
concatenated standard and error output, and the flag is `true` exactly when
the process ran and exited with code 0. -/
theorem c7_build_driver_total (o : BuildOutcome) :
    ((get_compilation_output o).1 = true ↔ ∃ out err, o = .ran 0 out err) ∧
    (∀ msg, o = .raised msg → get_compilation_output o = (false, msg)) ∧
    (∀ rc out err, o = .ran rc out err →
      get_compilation_output o = (rc == 0, out ++ err)) := by
  refine ⟨?_, ?_, ?_⟩
  · constructor
    · intro h
      cases o with
      | ran rc out err =>
        refine ⟨out, err, ?_⟩
        simp [get_compilation_output] at h
        simp [h]
      | raised msg => simp [get_compilation_output] at h
    · rintro ⟨out, err, rfl⟩
      simp [get_compilation_output]
  · rintro msg rfl; rfl
  · rintro rc out err rfl; rfl

/-! ## Supporting lemmas relating the findall scanners to substring tests -/

theorem isPrefixOf_append_left (g x : List Char) : g.isPrefixOf (g ++ x) = true := by
  induction g with
  | nil => simp [List.isPrefixOf]
  | cons c cs ih => simp [List.isPrefixOf, ih]

theorem containsSub_nil_left (l : List Char) : containsSub [] l = true := by
  cases l with
  | nil => simp [containsSub]
  | cons c rest => simp [containsSub, List.isPrefixOf]

theorem containsSub_head {s l : List Char} (h : s.isPrefixOf l = true) :
    containsSub s l = true := by
  cases l with
  | nil =>
    cases s with
    | nil => simp [containsSub]
    | cons x xs => simp [List.isPrefixOf] at h
  | cons c rest => simp [containsSub, h]

theorem containsSub_cons (s : List Char) (c : Char) {rest : List Char}
    (h : containsSub s rest = true) : containsSub s (c :: rest) = true := by
  simp [containsSub, h]

theorem containsSub_mid (g a b : List Char) : containsSub g (a ++ g ++ b) = true := by
  induction a with
  | nil =>
    simp only [List.nil_append]
    exact containsSub_head (isPrefixOf_append_left g b)
  | cons x a' ih =>
    simp only [List.cons_append]
    exact containsSub_cons g x ih

theorem matchAt_some_decomp {pre : List Char} {d : Char} {suf l cap r : List Char}
    (h : matchAt pre d suf l = some (cap, r)) : ∃ b, l = pre ++ b := by
  unfold matchAt at h
  split at h
  · exact absurd h (by simp)
  · rename_i r1 h1
    exact ⟨r1, chopPre_eq_append h1⟩

theorem reFindallAux_ne_nil {pre : List Char} {d : Char} {suf : List Char} :
    ∀ {fuel : Nat} {l : List Char}, reFindallAux pre d suf fuel l ≠ [] →
      ∃ a b, l = a ++ pre ++ b := by
  intro fuel
  induction fuel with
  | zero => intro l h; simp [reFindallAux] at h
  | succ f ih =>
    intro l h
    cases l with
    | nil => simp [reFindallAux] at h
    | cons c rest =>
      rw [reFindallAux] at h
      cases hm : matchAt pre d suf (c :: rest) with
      | some x =>
        obtain ⟨m1, r1⟩ := x
        obtain ⟨b, hb⟩ := matchAt_some_decomp hm
        exact ⟨[], b, by simpa using hb⟩
      | none =>
        rw [hm] at h
        obtain ⟨a, b, hab⟩ := ih h
        exact ⟨c :: a, b, by simp [hab]⟩

theorem findMissingRules_gate {out : List Char} (h : findMissingRules out ≠ []) :
    gateMissingRule out = true := by
  obtain ⟨a, b, hab⟩ := reFindallAux_ne_nil h
  subst hab
  unfold gateMissingRule
  rw [show a ++ ("No rule to make target ".data ++ [sqc]) ++ b =
      a ++ "No rule to make target".data ++ (" ".data ++ [sqc] ++ b) by simp]
  exact containsSub_mid _ _ _

/-! ## Claim C2: rounds with no extractable diagnostic -/

/-- C2 counterexample: the output `multiple definition` (with no backtick-quoted
symbol) matches none of the six diagnostic extraction patterns, yet the round's
fix counter is 1 (the multiple-definition trigger is a plain substring test),
and a run in which every build fails with this output does not stop in the
STUCK state after one round: it runs all 7 rounds. -/
theorem c2_counterexample :
    matchesAnyDiagnostic "multiple definition".data = false ∧
    fixesApplied "multiple definition".data = 1 ∧
    run_dynamic_fix (fun _ => (false, "multiple definition".data)) = (false, 7) :=
  ⟨by decide, by decide, by decide⟩

/-- C2 (amended): if a round's build output contains none of the six trigger
conditions of the loop — the literal substrings `No rule to make target`,
`undeclared here (not in a function)` and `multiple definition`, a match of the
undefined-reference pattern, an undeclared `DSRTOS_`-prefixed uppercase
identifier, or a match of the macro-redefinition pattern — then that round's
fix counter is zero, and if this happens in round 1 with a failing build the
loop stops immediately with failure after round 1. -/
theorem c2_no_trigger_means_stuck (build : Nat → Bool × List Char)
    (out : List Char) (hb : build 1 = (false, out))
    (h1 : gateMissingRule out = false)
    (h2 : gateUndeclaredHere out = false)
    (h3 : gateMultipleDef out = false)
    (h4 : gateUndefinedRef out = false)
    (h5 : gateConstants out = false)
    (h6 : gateRedefined out = false) :
    fixesApplied out = 0 ∧ run_dynamic_fix build = (false, 1) := by
  have hz : fixesApplied out = 0 := by
    simp [fixesApplied, h1, h2, h3, h4, h5, h6]
  refine ⟨hz, ?_⟩
  simp [run_dynamic_fix, loopFrom, hb, hz]

/-- Witness for `c2_no_trigger_means_stuck` at the output `hello`. -/
theorem c2_no_trigger_means_stuck_witness :
    fixesApplied "hello".data = 0 ∧
    run_dynamic_fix (fun _ => (false, "hello".data)) = (false, 1) :=
  c2_no_trigger_means_stuck (fun _ => (false, "hello".data)) "hello".data rfl
    (by decide) (by decide) (by decide) (by decide) (by decide) (by decide)

/-! ## Claim C3: co-occurring missing-rule and undefined-reference diagnostics -/

/-- C3 counterexample: an output containing a missing-build-rule diagnostic,
an undefined-reference diagnostic, no diagnostic of any other kind, but also
the bare text `multiple definition` (which matches no extraction pattern)
produces a fix counter of 3, not 2. -/
theorem c3_counterexample :
    (findMissingRules ("No rule to make target ".data ++ [sqc] ++
        "build/x.o".data ++ [sqc] ++ "\nundefined reference to ".data ++
        [btc] ++ "foo".data ++ [sqc] ++ "\nmultiple definition\n".data) ≠ [] ∧
     findUndefinedRefs ("No rule to make target ".data ++ [sqc] ++
        "build/x.o".data ++ [sqc] ++ "\nundefined reference to ".data ++
        [btc] ++ "foo".data ++ [sqc] ++ "\nmultiple definition\n".data) ≠ [] ∧
     findUndeclaredHere ("No rule to make target ".data ++ [sqc] ++
        "build/x.o".data ++ [sqc] ++ "\nundefined reference to ".data ++
        [btc] ++ "foo".data ++ [sqc] ++ "\nmultiple definition\n".data) = [] ∧
     findUndeclaredFirstUse ("No rule to make target ".data ++ [sqc] ++
        "build/x.o".data ++ [sqc] ++ "\nundefined reference to ".data ++
        [btc] ++ "foo".data ++ [sqc] ++ "\nmultiple definition\n".data) = [] ∧
     findMultipleDefs ("No rule to make target ".data ++ [sqc] ++
        "build/x.o".data ++ [sqc] ++ "\nundefined reference to ".data ++
        [btc] ++ "foo".data ++ [sqc] ++ "\nmultiple definition\n".data) = [] ∧
     constantsOf ("No rule to make target ".data ++ [sqc] ++
        "build/x.o".data ++ [sqc] ++ "\nundefined reference to ".data ++
        [btc] ++ "foo".data ++ [sqc] ++ "\nmultiple definition\n".data) = [] ∧
     findRedefined ("No rule to make target ".data ++ [sqc] ++
        "build/x.o".data ++ [sqc] ++ "\nundefined reference to ".data ++
        [btc] ++ "foo".data ++ [sqc] ++ "\nmultiple definition\n".data) = []) ∧
    fixesApplied ("No rule to make target ".data ++ [sqc] ++
        "build/x.o".data ++ [sqc] ++ "\nundefined reference to ".data ++
        [btc] ++ "foo".data ++ [sqc] ++ "\nmultiple definition\n".data) = 3 :=
  ⟨⟨by decide, by decide, by decide, by decide, by decide, by decide, by decide⟩,
   by decide⟩

/-- C3 (amended): if a round's output matches the missing-build-rule pattern
and the undefined-reference pattern, and fires none of the other four trigger
conditions (in particular none of the bare trigger substrings for
undeclared-symbol or multiple-definition appears), then both the
missing-rule synthesizer trigger and the stub synthesizer trigger fire and
the round's fix counter is exactly 2. -/
theorem c3_two_kinds_two_fixes (out : List Char)
    (hmr : findMissingRules out ≠ [])
    (hur : findUndefinedRefs out ≠ [])
    (h2 : gateUndeclaredHere out = false)
    (h3 : gateMultipleDef out = false)
    (h5 : gateConstants out = false)
    (h6 : gateRedefined out = false) :
    gateMissingRule out = true ∧ gateUndefinedRef out = true ∧
      fixesApplied out = 2 := by
  have g1 : gateMissingRule out = true := findMissingRules_gate hmr
  have g4 : gateUndefinedRef out = true := by
    unfold gateUndefinedRef
    simpa using hur
  exact ⟨g1, g4, by simp [fixesApplied, g1, g4, h2, h3, h5, h6]⟩

/-- Witness for `c3_two_kinds_two_fixes` at a two-diagnostic output. -/
theorem c3_two_kinds_two_fixes_witness :
    gateMissingRule ("No rule to make target ".data ++ [sqc] ++ "x.o".data ++
        [sqc] ++ "\nundefined reference to ".data ++ [btc] ++ "foo".data ++
        [sqc]) = true ∧
    gateUndefinedRef ("No rule to make target ".data ++ [sqc] ++ "x.o".data ++
        [sqc] ++ "\nundefined reference to ".data ++ [btc] ++ "foo".data ++
        [sqc]) = true ∧
    fixesApplied ("No rule to make target ".data ++ [sqc] ++ "x.o".data ++
        [sqc] ++ "\nundefined reference to ".data ++ [btc] ++ "foo".data ++
        [sqc]) = 2 :=
  c3_two_kinds_two_fixes _ (by decide) (by decide) (by decide) (by decide)
    (by decide) (by decide)

/-! ## Counting toolkit for substring occurrences -/

theorem isPrefixOf_mono_append {s t : List Char} (u : List Char)
    (h : s.isPrefixOf t = true) : s.isPrefixOf (t ++ u) = true := by
  induction s generalizing t with
  | nil => simp [List.isPrefixOf]
  | cons x xs ih =>
    cases t with
    | nil => simp [List.isPrefixOf] at h
    | cons c cs =>
      simp only [List.isPrefixOf, Bool.and_eq_true] at h
      simp only [List.cons_append, List.isPrefixOf, Bool.and_eq_true]
      exact ⟨h.1, ih h.2⟩

theorem countSub_le_append_left (s a b : List Char) :
    countSub s a ≤ countSub s (a ++ b) := by
  induction a with
  | nil => simp [countSub]
  | cons c a' ih =>
    simp only [List.cons_append, countSub, List.append_eq]
    by_cases hp : s.isPrefixOf (c :: a') = true
    · have hp2 : s.isPrefixOf (c :: (a' ++ b)) = true := by
        have h2 := isPrefixOf_mono_append b hp
        simpa using h2
      rw [if_pos hp, if_pos hp2]
      omega
    · rw [if_neg hp]
      split <;> omega

theorem countSub_le_append_right (s a b : List Char) :
    countSub s b ≤ countSub s (a ++ b) := by
  induction a with
  | nil => simp
  | cons c a' ih =>
    simp only [List.cons_append, countSub, List.append_eq]
    split <;> omega

theorem isPrefixOf_length_le {s t : List Char} (h : s.isPrefixOf t = true) :
    s.length ≤ t.length := by
  induction s generalizing t with
  | nil => simp
  | cons x xs ih =>
    cases t with
    | nil => simp [List.isPrefixOf] at h
    | cons c cs =>
      simp only [List.isPrefixOf, Bool.and_eq_true] at h
      have := ih h.2
      simp only [List.length_cons]
      omega

theorem countSub_of_short {s l : List Char} (h : l.length < s.length) :
    countSub s l = 0 := by
  induction l with
  | nil => simp [countSub]
  | cons c rest ih =>
    simp only [countSub]
    have hp : ¬ s.isPrefixOf (c :: rest) = true := by
      intro hc
      have := isPrefixOf_length_le hc
      omega
    rw [if_neg hp, ih (by simp only [List.length_cons] at h; omega)]

theorem isPrefixOf_refl (s : List Char) : s.isPrefixOf s = true := by
  have h := isPrefixOf_append_left s []
  simpa using h

theorem countSub_self {s : List Char} (h : s ≠ []) : countSub s s = 1 := by
  cases s with
  | nil => exact absurd rfl h
  | cons c rest =>
    simp only [countSub, if_pos (isPrefixOf_refl (c :: rest))]
    rw [countSub_of_short (by simp)]

theorem isPrefixOf_split_notMem {c : Char} {s : List Char} (A R : List Char)
    (hc : c ∉ s) : s.isPrefixOf (A ++ c :: R) = s.isPrefixOf A := by
  induction s generalizing A with
  | nil => simp [List.isPrefixOf]
  | cons x xs ih =>
    cases A with
    | nil =>
      simp only [List.nil_append, List.isPrefixOf]
      have hx : (x == c) = false := by
        simp only [beq_eq_false_iff_ne, ne_eq]
        intro hxe
        exact hc (by simp [hxe])
      simp [hx]
    | cons a A' =>
      simp only [List.cons_append, List.isPrefixOf, List.append_eq]
      rw [ih A' (fun hm => hc (by simp [hm]))]

theorem countSub_split_notMem {c : Char} {s : List Char} (A R : List Char)
    (hc : c ∉ s) : countSub s (A ++ c :: R) = countSub s A + countSub s (c :: R) := by
  induction A with
  | nil => simp [countSub]
  | cons a A' ih =>
    simp only [List.cons_append, countSub, List.append_eq]
    have h1 : s.isPrefixOf (a :: (A' ++ c :: R)) = s.isPrefixOf (a :: A') := by
      have h2 := isPrefixOf_split_notMem (c := c) (s := s) (a :: A') R hc
      simpa using h2
    have h3 : countSub s (c :: R) =
        (if s.isPrefixOf (c :: R) = true then 1 else 0) + countSub s R := by
      simp only [countSub]
    simp only [h1, ih, h3]
    omega

theorem countSub_cons_head_ne {x : Char} {s' : List Char} {c : Char}
    (R : List Char) (h : x ≠ c) :
    countSub (x :: s') (c :: R) = countSub (x :: s') R := by
  have hp : (x :: s').isPrefixOf (c :: R) = false := by
    simp only [List.isPrefixOf]
    have hb : (x == c) = false := beq_eq_false_iff_ne.mpr h
    simp [hb]
  simp only [countSub, hp]
  simp

theorem containsSub_false_countSub {s l : List Char}
    (h : containsSub s l = false) : countSub s l = 0 := by
  induction l with
  | nil => simp [countSub]
  | cons c rest ih =>
    simp only [containsSub, Bool.or_eq_false_iff] at h
    have h1 : (if s.isPrefixOf (c :: rest) = true then 1 else 0) = 0 := by
      rw [if_neg (by simp [h.1])]
    simp only [countSub, h1, ih h.2]

theorem countSub_zero_not_contains {s l : List Char} (hs : s ≠ [])
    (h : countSub s l = 0) : containsSub s l = false := by
  induction l with
  | nil =>
    cases s with
    | nil => exact absurd rfl hs
    | cons x xs => simp [containsSub]
  | cons c rest ih =>
    simp only [countSub] at h
    by_cases hp : s.isPrefixOf (c :: rest) = true
    · rw [if_pos hp] at h
      omega
    · have h1 : s.isPrefixOf (c :: rest) = false := Bool.eq_false_iff.mpr hp
      rw [if_neg hp] at h
      simp only [Nat.zero_add] at h
      simp only [containsSub, h1, ih h, Bool.or_self]

/-! ## Manifest insertion (`add_source_to_makefile`)

`re.sub(r'(PHASE1_C_SOURCES\s*=\s*\\)', rf'\1\n    {source_path} \\', content)`
replaces every occurrence of the label pattern by the matched text followed
by a new continuation line holding the source path.  In the pattern, each
`\s*` is followed by a character that is not whitespace (`=` resp. `\`), so
greedy matching is deterministic: the whole whitespace run is consumed.  The
embedding of the replacement template is faithful for source paths that
contain no backslash (a backslash inside the interpolated path would be
processed as a template escape by Python). -/

def phase1Label : List Char := "PHASE1_C_SOURCES".data

def csourcesLabel : List Char := "C_SOURCES".data

/-- Match the pattern `label\s*=\s*\\` at the head of `l`, returning the
matched text and the remainder. -/
def matchLabelAt (label : List Char) (l : List Char) :
    Option (List Char × List Char) :=
  match chopPre label l with
  | none => none
  | some r1 =>
    match r1.dropWhile pyWs with
    | '=' :: r3 =>
      match r3.dropWhile pyWs with
      | '\\' :: r5 =>
        some (label ++ r1.takeWhile pyWs ++ '=' :: (r3.takeWhile pyWs ++ ['\\']), r5)
      | _ => none
    | _ => none

/-- The text inserted after each matched label occurrence:
`\n    {source_path} \`. -/
def insertText (path : List Char) : List Char :=
  '\n' :: ("    ".data ++ path ++ " \\".data)

theorem dropWhile_cons_decomp {p : Char → Bool} {l r : List Char} {c : Char}
    (h : l.dropWhile p = c :: r) : l = l.takeWhile p ++ c :: r := by
  conv_lhs => rw [← List.takeWhile_append_dropWhile (p := p) (l := l)]
  rw [h]

theorem matchLabelAt_decomp {label l m r : List Char}
    (h : matchLabelAt label l = some (m, r)) : l = m ++ r ∧ 0 < m.length := by
  unfold matchLabelAt at h
  split at h
  · exact absurd h (by simp)
  · rename_i r1 h1
    split at h
    · rename_i r3 h3
      split at h
      · rename_i r5 h5
        have hp := Option.some.inj h
        have hm : label ++ r1.takeWhile pyWs ++ '=' :: (r3.takeWhile pyWs ++ ['\\']) = m :=
          congrArg Prod.fst hp
        have hr : r5 = r := congrArg Prod.snd hp
        have e1 : l = label ++ r1 := chopPre_eq_append h1
        have e3 : r1 = r1.takeWhile pyWs ++ '=' :: r3 := dropWhile_cons_decomp h3
        have e5 : r3 = r3.takeWhile pyWs ++ '\\' :: r5 := dropWhile_cons_decomp h5
        constructor
        · rw [e1, e3, e5, ← hm, ← hr]
          simp
        · rw [← hm]
          simp
      · exact absurd h (by simp)
    · exact absurd h (by simp)

/-- Fuelled scanner for the label substitution (`re.sub` replaces every
non-overlapping occurrence, continuing after each match). -/
def subLabelAux (label path : List Char) : Nat → List Char → List Char
  | 0, l => l
  | _ + 1, [] => []
  | fuel + 1, c :: rest =>
    match matchLabelAt label (c :: rest) with
    | some (m, r) => m ++ insertText path ++ subLabelAux label path fuel r
    | none => c :: subLabelAux label path fuel rest

/-- `re.sub` of the label pattern with the continuation-line replacement. -/
def subLabel (label path l : List Char) : List Char :=
  subLabelAux label path l.length l

/-- Fuelled count of non-overlapping matches of the label pattern. -/
def countLabelAux (label : List Char) : Nat → List Char → Nat
  | 0, _ => 0
  | _ + 1, [] => 0
  | fuel + 1, c :: rest =>
    match matchLabelAt label (c :: rest) with
    | some (_, r) => 1 + countLabelAux label fuel r
    | none => countLabelAux label fuel rest

/-- Number of non-overlapping matches of `label\s*=\s*\\` in `l`. -/
def countLabelMatches (label l : List Char) : Nat :=
  countLabelAux label l.length l

/-- `add_source_to_makefile`: no-op when `src/{name}` already occurs in the
manifest; otherwise substitute under `PHASE1_C_SOURCES` when that substring
is present, else under `C_SOURCES`. -/
def add_source_to_makefile (content : List Char) (source_name : List Char) :
    List Char :=
  if containsSub ("src/".data ++ source_name) content then content
  else if containsSub "PHASE1_C_SOURCES".data content then
    subLabel phase1Label ("src/".data ++ source_name) content
  else
    subLabel csourcesLabel ("src/".data ++ source_name) content

theorem subLabelAux_id_of_count_zero {label path : List Char} :
    ∀ {fuel : Nat} {l : List Char}, countLabelAux label fuel l = 0 →
      subLabelAux label path fuel l = l := by
  intro fuel
  induction fuel with
  | zero => intro l _; rfl
  | succ f ih =>
    intro l h
    cases l with
    | nil => rfl
    | cons c rest =>
      rw [countLabelAux] at h
      rw [subLabelAux]
      cases hm : matchLabelAt label (c :: rest) with
      | some x =>
        obtain ⟨m1, r1⟩ := x
        simp only [hm] at h
        omega
      | none =>
        simp only [hm] at h ⊢
        rw [ih h]

theorem subLabelAux_decomp_of_count_one {label path : List Char} :
    ∀ {fuel : Nat} {l : List Char}, countLabelAux label fuel l = 1 →
      ∃ A r, l = A ++ r ∧
        subLabelAux label path fuel l = A ++ insertText path ++ r := by
  intro fuel
  induction fuel with
  | zero => intro l h; simp [countLabelAux] at h
  | succ f ih =>
    intro l h
    cases l with
    | nil => simp [countLabelAux] at h
    | cons c rest =>
      rw [countLabelAux] at h
      rw [subLabelAux]
      cases hm : matchLabelAt label (c :: rest) with
      | some x =>
        obtain ⟨m1, r1⟩ := x
        simp only [hm] at h ⊢
        have hz : countLabelAux label f r1 = 0 := by omega
        obtain ⟨hmr, _⟩ := matchLabelAt_decomp hm
        refine ⟨m1, r1, hmr, ?_⟩
        rw [subLabelAux_id_of_count_zero hz]
      | none =>
        simp only [hm] at h ⊢
        obtain ⟨A, r, hl, hs⟩ := ih h
        refine ⟨c :: A, r, by simp [hl], ?_⟩
        rw [hs]
        simp

theorem subLabelAux_id_or_inserts {label path : List Char} :
    ∀ {fuel : Nat} {l : List Char},
      subLabelAux label path fuel l = l ∨
        ∃ a b, subLabelAux label path fuel l = a ++ path ++ b := by
  intro fuel
  induction fuel with
  | zero => intro l; exact Or.inl rfl
  | succ f ih =>
    intro l
    cases l with
    | nil => exact Or.inl rfl
    | cons c rest =>
      rw [subLabelAux]
      cases hm : matchLabelAt label (c :: rest) with
      | some x =>
        obtain ⟨m1, r1⟩ := x
        simp only [hm]
        exact Or.inr ⟨m1 ++ '\n' :: "    ".data,
          " \\".data ++ subLabelAux label path f r1, by simp [insertText]⟩
      | none =>
        simp only [hm]
        rcases ih (l := rest) with h | ⟨a, b, h⟩
        · exact Or.inl (by rw [h])
        · exact Or.inr ⟨c :: a, b, by rw [h]; simp⟩

/-- After a substitution with exactly one label match, a path that did not
occur before occurs exactly once (the path must not contain newline, space
or backslash, the characters adjacent to it in the inserted text). -/
theorem subLabel_count_one {label path content : List Char}
    (hne : path ≠ []) (hnl : '\n' ∉ path) (hsp : ' ' ∉ path) (hbs : '\\' ∉ path)
    (h0 : countSub path content = 0)
    (h1 : countLabelMatches label content = 1) :
    countSub path (subLabel label path content) = 1 := by
  obtain ⟨A, r, hl, hs⟩ :=
    @subLabelAux_decomp_of_count_one label path content.length content h1
  have hA : countSub path A = 0 := by
    have hle := countSub_le_append_left path A r
    rw [← hl, h0] at hle
    omega
  have hr : countSub path r = 0 := by
    have hle := countSub_le_append_right path A r
    rw [← hl, h0] at hle
    omega
  cases path with
  | nil => exact absurd rfl hne
  | cons p0 pt =>
    have hn1 : p0 ≠ '\n' := fun he => hnl (by simp [he])
    have hs1 : p0 ≠ ' ' := fun he => hsp (by simp [he])
    have hb1 : p0 ≠ '\\' := fun he => hbs (by simp [he])
    have hshape : subLabel label (p0 :: pt) content =
        A ++ '\n' :: ' ' :: ' ' :: ' ' :: ' ' ::
          ((p0 :: pt) ++ ' ' :: '\\' :: r) := by
      show subLabelAux label (p0 :: pt) content.length content = _
      rw [hs]
      simp [insertText]
    rw [hshape, countSub_split_notMem A _ hnl,
        countSub_cons_head_ne _ hn1,
        countSub_cons_head_ne _ hs1, countSub_cons_head_ne _ hs1,
        countSub_cons_head_ne _ hs1, countSub_cons_head_ne _ hs1,
        countSub_split_notMem (p0 :: pt) _ hsp,
        countSub_cons_head_ne _ hs1, countSub_cons_head_ne _ hb1,
        countSub_self (List.cons_ne_nil p0 pt), hA, hr]

/-- Insertion of a fresh path under a unique `PHASE1_C_SOURCES` label puts
exactly one reference of `src/{name}` into the manifest. -/
theorem add_source_count_one {content name : List Char}
    (h0 : countSub ("src/".data ++ name) content = 0)
    (hp : containsSub "PHASE1_C_SOURCES".data content = true)
    (h1 : countLabelMatches phase1Label content = 1)
    (hnl : '\n' ∉ name) (hsp : ' ' ∉ name) (hbs : '\\' ∉ name) :
    countSub ("src/".data ++ name) (add_source_to_makefile content name) = 1 := by
  have hnotin : (c : Char) → c ∉ "src/".data → c ∉ name →
      c ∉ "src/".data ++ name := by
    intro c hc1 hc2 hm
    rcases List.mem_append.mp hm with h | h
    · exact hc1 h
    · exact hc2 h
  have hne : "src/".data ++ name ≠ [] := by simp
  have hcf : containsSub ("src/".data ++ name) content = false :=
    countSub_zero_not_contains hne h0
  unfold add_source_to_makefile
  rw [if_neg (by simpa using hcf), if_pos hp]
  exact subLabel_count_one hne (hnotin '\n' (by decide) hnl)
    (hnotin ' ' (by decide) hsp) (hnotin '\\' (by decide) hbs) h0 h1

/-- Once a substitution branch ran, re-running `add_source_to_makefile` is a
no-op: either the substitution changed nothing, or it inserted the path and
the containment test short-circuits the second call. -/
theorem add_source_idem_branch {content name lab : List Char}
    (h1 : add_source_to_makefile content name =
      subLabel lab ("src/".data ++ name) content) :
    add_source_to_makefile (add_source_to_makefile content name) name =
      add_source_to_makefile content name := by
  rcases @subLabelAux_id_or_inserts lab ("src/".data ++ name)
      content.length content with he | ⟨a, b, he⟩
  · have h2 : add_source_to_makefile content name = content := by
      rw [h1]
      exact he
    rw [h2]
    exact h2
  · have hcc : containsSub ("src/".data ++ name)
        (add_source_to_makefile content name) = true := by
      rw [h1]
      show containsSub _ (subLabelAux lab _ content.length content) = true
      rw [he]
      exact containsSub_mid _ a b
    generalize hX : add_source_to_makefile content name = X at hcc ⊢
    unfold add_source_to_makefile
    rw [if_pos hcc]

/-- The embedded `add_source_to_makefile` is idempotent for every manifest
and name.  As a statement about the program this is only meaningful for
backslash-free names, the domain on which the literal replacement model is
exact (see the section comment above `matchLabelAt`). -/
theorem add_source_idem (content name : List Char) :
    add_source_to_makefile (add_source_to_makefile content name) name =
      add_source_to_makefile content name := by
  by_cases hc : containsSub ("src/".data ++ name) content = true
  · have h1 : add_source_to_makefile content name = content := by
      unfold add_source_to_makefile
      rw [if_pos hc]
    rw [h1]
    exact h1
  · by_cases hp : containsSub "PHASE1_C_SOURCES".data content = true
    · exact @add_source_idem_branch content name phase1Label (by
        unfold add_source_to_makefile
        rw [if_neg hc, if_pos hp])
    · exact @add_source_idem_branch content name csourcesLabel (by
        unfold add_source_to_makefile
        rw [if_neg hc, if_neg hp])

/-! ## Claim C4: idempotence and uniqueness of manifest insertion -/

/-- C4 counterexample: on a manifest containing the label pattern twice,
a single insertion of a fresh path writes the path twice — the reference
count after one insertion is 2, not 1. -/
theorem c4_counterexample :
    countSub "src/foo.c".data
      (add_source_to_makefile
        "PHASE1_C_SOURCES = \\\nPHASE1_C_SOURCES = \\\n".data "foo.c".data) = 2 := by
  decide

/-- C4 (amended): manifest insertion is idempotent for every manifest content
and every source name free of backslashes (for a name with a backslash the
replacement template handed to `re.sub` would process it as an escape, so the
literal embedding — and the idempotence argument — only covers backslash-free
names); and when the path `src/{name}` is not yet referenced, the primary
label substring is present and its pattern `PHASE1_C_SOURCES\s*=\s*\\`
matches exactly once (and the name contains no newline, space or backslash),
the manifest's reference count for the path after insertion is exactly one. -/
theorem c4_insertion_idempotent_unique :
    (∀ content name, '\\' ∉ name →
      add_source_to_makefile (add_source_to_makefile content name) name =
        add_source_to_makefile content name) ∧
    (∀ content name, countSub ("src/".data ++ name) content = 0 →
      containsSub "PHASE1_C_SOURCES".data content = true →
      countLabelMatches phase1Label content = 1 →
      '\n' ∉ name → ' ' ∉ name → '\\' ∉ name →
      countSub ("src/".data ++ name) (add_source_to_makefile content name) = 1) :=
  ⟨fun content name _ => add_source_idem content name,
   fun _ _ h0 hp h1 hnl hsp hbs => add_source_count_one h0 hp h1 hnl hsp hbs⟩

/-- Witness for `c4_insertion_idempotent_unique` on a one-label manifest. -/
theorem c4_insertion_idempotent_unique_witness :
    add_source_to_makefile
        (add_source_to_makefile "PHASE1_C_SOURCES = \\\n    src/main.c \\\n".data
          "dsrtos_stubs.c".data) "dsrtos_stubs.c".data =
      add_source_to_makefile "PHASE1_C_SOURCES = \\\n    src/main.c \\\n".data
        "dsrtos_stubs.c".data ∧
    countSub ("src/".data ++ "dsrtos_stubs.c".data)
      (add_source_to_makefile "PHASE1_C_SOURCES = \\\n    src/main.c \\\n".data
        "dsrtos_stubs.c".data) = 1 :=
  ⟨c4_insertion_idempotent_unique.1 _ _ (by decide),
   c4_insertion_idempotent_unique.2 "PHASE1_C_SOURCES = \\\n    src/main.c \\\n".data
     "dsrtos_stubs.c".data (by decide) (by decide) (by decide) (by decide)
     (by decide) (by decide)⟩

/-! ## Claim C9: primary label present but pattern absent -/

/-- C9: when the manifest contains the substring `PHASE1_C_SOURCES` but no
occurrence of the pattern `PHASE1_C_SOURCES\s*=\s*\\`, inserting a
not-yet-referenced path leaves the manifest textually unchanged: the fallback
`C_SOURCES` label is never attempted and the path is silently not
registered. -/
theorem c9_primary_label_shadows_fallback (content name : List Char)
    (hc : containsSub ("src/".data ++ name) content = false)
    (hp : containsSub "PHASE1_C_SOURCES".data content = true)
    (hz : countLabelMatches phase1Label content = 0) :
    add_source_to_makefile content name = content := by
  unfold add_source_to_makefile
  rw [if_neg (by simpa using hc), if_pos hp]
  exact subLabelAux_id_of_count_zero hz

/-- Witness for `c9_primary_label_shadows_fallback`: the manifest even holds a
well-formed fallback `C_SOURCES = \` list, yet nothing is inserted. -/
theorem c9_primary_label_shadows_fallback_witness :
    add_source_to_makefile "PHASE1_C_SOURCES : x\nC_SOURCES = \\\n".data
      "foo.c".data = "PHASE1_C_SOURCES : x\nC_SOURCES = \\\n".data :=
  c9_primary_label_shadows_fallback _ _ (by decide) (by decide) (by decide)

/-! ## Stub synthesis (`create_comprehensive_stubs`) -/

/-- Per-symbol stub body selection of `create_comprehensive_stubs` (first
matching name substring wins; unrecognized symbols get the generic
zero-returning body). -/
def stubLine (symbol : List Char) : List Char :=
  if containsSub "error_is_critical".data symbol then
    "bool ".data ++ symbol ++ "(uint32_t error) \x7b return false; \x7d\n".data
  else if containsSub "error_requires_shutdown".data symbol then
    "bool ".data ++ symbol ++ "(uint32_t error) \x7b return false; \x7d\n".data
  else if containsSub "memory_init".data symbol then
    "uint32_t ".data ++ symbol ++ "(void) \x7b return 0U; \x7d\n".data
  else if containsSub "memory_get_stats".data symbol then
    "void ".data ++ symbol ++
      "(uint32_t* a, uint32_t* b, uint32_t* c) \x7b if(a)*a=32768U; if(b)*b=0U; if(c)*c=0U; \x7d\n".data
  else if containsSub "__stack_chk_fail".data symbol then
    "void ".data ++ symbol ++ "(void) \x7b while(1); \x7d\n".data
  else if containsSub "__stack_chk_guard".data symbol then
    "uint32_t ".data ++ symbol ++ " = 0xDEADBEEFU;\n".data
  else
    "uint32_t ".data ++ symbol ++ "(void) \x7b return 0U; \x7d\n".data

/-- Fixed header of the generated stubs file; the date is the only varying
part. -/
def stubsHeader (date : List Char) : List Char :=
  "/**\n * @file dsrtos_stubs.c\n * @brief Comprehensive DSRTOS Stub Implementations\n * @date ".data
    ++ date ++
  "\n * MISRA C:2012, DO-178C, IEC 62304, IEC 61508 Compliant\n */\n\n#include <stdint.h>\n#include <stdbool.h>\n\n".data

/-- `create_comprehensive_stubs`: overwrite `src/dsrtos_stubs.c` with the
header and one stub per symbol, then register the file in the manifest.
Returns (stub file content, updated manifest). -/
def create_comprehensive_stubs (date : List Char) (symbols : List (List Char))
    (makefile : List Char) : List Char × List Char :=
  (stubsHeader date ++ (symbols.map stubLine).flatten,
   add_source_to_makefile makefile "dsrtos_stubs.c".data)

/-! ## Constants synthesis (`create_constants_file`) -/

/-- Value heuristic of `create_constants_file`. -/
def constValue (c : List Char) : List Char :=
  if containsSub "HEAP_SIZE".data c then "32768U".data
  else if containsSub "ERROR_HARDWARE".data c then "0x1000000BU".data
  else if containsSub "ERROR_FATAL".data c then "0x1000000AU".data
  else if containsSub "ERROR_".data c then "0x10000001U".data
  else "0U".data

/-- One generated `#define` line: the constant name is left-justified to
width 30 (`{const:<30}`). -/
def constLine (c : List Char) : List Char :=
  "#define ".data ++ c ++ List.replicate (30 - c.length) ' ' ++ " ".data ++
    constValue c ++ "\n".data

/-- Fixed preamble of the generated constants header. -/
def constantsFilePre : List Char :=
  "#ifndef DSRTOS_AUTO_CONSTANTS_H\n#define DSRTOS_AUTO_CONSTANTS_H\n\n/* Auto-generated missing constants */\n".data

/-- Content written to `include/common/dsrtos_auto_constants.h`. -/
def create_constants_content (consts : List (List Char)) : List Char :=
  constantsFilePre ++ (consts.map constLine).flatten ++ "\n#endif\n".data

/-- The header file name the include-insertion step checks for. -/
def autoConstHeaderName : List Char := "dsrtos_auto_constants.h".data

/-- The include directive prepended to referencing sources. -/
def autoConstInclude : List Char := "#include \"dsrtos_auto_constants.h\"\n".data

/-- Per-file include insertion of `create_constants_file`: a file referencing
any of the constants and not already mentioning the generated header gets the
include directive prepended. -/
def addConstInclude (consts : List (List Char)) (content : List Char) :
    List Char :=
  if consts.any (fun c => containsSub c content) then
    if containsSub autoConstHeaderName content then content
    else autoConstInclude ++ content
  else content

/-- `create_constants_file`: write the constants header and update every
source file.  Returns (header content, updated files). -/
def create_constants_file (consts : List (List Char))
    (files : List (List Char)) : List Char × List (List Char) :=
  (create_constants_content consts, files.map (addConstInclude consts))

theorem countSub_cons_not_prefixOf {s : List Char} {c : Char} {R : List Char}
    (h : s.isPrefixOf (c :: R) = false) : countSub s (c :: R) = countSub s R := by
  simp only [countSub, h]
  simp

theorem flatten_map_mem (f : List Char → List Char) {x : List Char}
    {l : List (List Char)} (hx : x ∈ l) :
    ∃ a b, (l.map f).flatten = a ++ f x ++ b := by
  induction l with
  | nil => simp at hx
  | cons y ys ih =>
    rcases List.mem_cons.mp hx with h | h
    · exact ⟨[], (ys.map f).flatten, by simp [h]⟩
    · obtain ⟨a, b, hab⟩ := ih h
      exact ⟨f y ++ a, b, by simp [hab]⟩

/-! ## Claim C5: stub synthesis for a memory-init and an unknown symbol -/

/-- C5: for the undefined-reference set `{dsrtos_memory_init, foo_unused}`,
the written stub file is the fixed header followed by a
`uint32_t dsrtos_memory_init(void)` body returning `0U` and the generic
zero-returning body for `foo_unused`; and, for a manifest that does not yet
reference `src/dsrtos_stubs.c` and holds exactly one `PHASE1_C_SOURCES = \`
list header, the stub file path ends up referenced exactly once. -/
theorem c5_stub_synthesis (date makefile : List Char)
    (h0 : countSub "src/dsrtos_stubs.c".data makefile = 0)
    (hp : containsSub "PHASE1_C_SOURCES".data makefile = true)
    (h1 : countLabelMatches phase1Label makefile = 1) :
    (create_comprehensive_stubs date
        ["dsrtos_memory_init".data, "foo_unused".data] makefile).1 =
      stubsHeader date ++
        ("uint32_t dsrtos_memory_init(void) \x7b return 0U; \x7d\n".data ++
         "uint32_t foo_unused(void) \x7b return 0U; \x7d\n".data) ∧
    containsSub "uint32_t dsrtos_memory_init(void) \x7b return 0U; \x7d\n".data
      (create_comprehensive_stubs date
        ["dsrtos_memory_init".data, "foo_unused".data] makefile).1 = true ∧
    containsSub "uint32_t foo_unused(void) \x7b return 0U; \x7d\n".data
      (create_comprehensive_stubs date
        ["dsrtos_memory_init".data, "foo_unused".data] makefile).1 = true ∧
    countSub "src/dsrtos_stubs.c".data
      (create_comprehensive_stubs date
        ["dsrtos_memory_init".data, "foo_unused".data] makefile).2 = 1 := by
  have hbody : ((["dsrtos_memory_init".data, "foo_unused".data]).map
      stubLine).flatten =
      "uint32_t dsrtos_memory_init(void) \x7b return 0U; \x7d\n".data ++
        "uint32_t foo_unused(void) \x7b return 0U; \x7d\n".data := by
    decide
  have hfst : (create_comprehensive_stubs date
      ["dsrtos_memory_init".data, "foo_unused".data] makefile).1 =
      stubsHeader date ++
        ("uint32_t dsrtos_memory_init(void) \x7b return 0U; \x7d\n".data ++
         "uint32_t foo_unused(void) \x7b return 0U; \x7d\n".data) := by
    show stubsHeader date ++ _ = _
    rw [hbody]
  refine ⟨hfst, ?_, ?_, ?_⟩
  · rw [hfst, ← List.append_assoc]
    exact containsSub_mid _ (stubsHeader date) _
  · rw [hfst, ← List.append_assoc]
    have h2 := containsSub_mid "uint32_t foo_unused(void) \x7b return 0U; \x7d\n".data
      (stubsHeader date ++
        "uint32_t dsrtos_memory_init(void) \x7b return 0U; \x7d\n".data) []
    simpa using h2
  · show countSub _ (add_source_to_makefile makefile "dsrtos_stubs.c".data) = 1
    have hcount := @add_source_count_one makefile "dsrtos_stubs.c".data
      (by simpa using h0) hp h1 (by decide) (by decide) (by decide)
    simpa using hcount

/-- Witness for `c5_stub_synthesis` on a one-label manifest. -/
theorem c5_stub_synthesis_witness :
    (create_comprehensive_stubs "2025-09-13".data
        ["dsrtos_memory_init".data, "foo_unused".data]
        "PHASE1_C_SOURCES = \\\n".data).1 =
      stubsHeader "2025-09-13".data ++
        ("uint32_t dsrtos_memory_init(void) \x7b return 0U; \x7d\n".data ++
         "uint32_t foo_unused(void) \x7b return 0U; \x7d\n".data) ∧
    containsSub "uint32_t dsrtos_memory_init(void) \x7b return 0U; \x7d\n".data
      (create_comprehensive_stubs "2025-09-13".data
        ["dsrtos_memory_init".data, "foo_unused".data]
        "PHASE1_C_SOURCES = \\\n".data).1 = true ∧
    containsSub "uint32_t foo_unused(void) \x7b return 0U; \x7d\n".data
      (create_comprehensive_stubs "2025-09-13".data
        ["dsrtos_memory_init".data, "foo_unused".data]
        "PHASE1_C_SOURCES = \\\n".data).1 = true ∧
    countSub "src/dsrtos_stubs.c".data
      (create_comprehensive_stubs "2025-09-13".data
        ["dsrtos_memory_init".data, "foo_unused".data]
        "PHASE1_C_SOURCES = \\\n".data).2 = 1 :=
  c5_stub_synthesis "2025-09-13".data "PHASE1_C_SOURCES = \\\n".data
    (by decide) (by decide) (by decide)

/-! ## Claim C6: constants synthesis and include insertion -/

/-- C6: the generated constants header defines `DSRTOS_ERROR_FATAL` as the
fatal-error sentinel `0x1000000AU` and `DSRTOS_HEAP_SIZE` as the fixed heap
capacity `32768U`, and every source file that references one of the constants
and does not already mention the generated header gains exactly one include
directive for it (reference count of the header name goes from 0 to 1). -/
theorem c6_constants_synthesis (consts : List (List Char)) (content : List Char)
    (hf : "DSRTOS_ERROR_FATAL".data ∈ consts)
    (hh : "DSRTOS_HEAP_SIZE".data ∈ consts)
    (href : consts.any (fun c => containsSub c content) = true)
    (hni : containsSub autoConstHeaderName content = false) :
    containsSub "#define DSRTOS_ERROR_FATAL             0x1000000AU\n".data
      (create_constants_content consts) = true ∧
    containsSub "#define DSRTOS_HEAP_SIZE               32768U\n".data
      (create_constants_content consts) = true ∧
    addConstInclude consts content = autoConstInclude ++ content ∧
    countSub autoConstHeaderName (addConstInclude consts content) = 1 := by
  have hcontains : ∀ x : List Char, x ∈ consts →
      containsSub (constLine x) (create_constants_content consts) = true := by
    intro x hx
    obtain ⟨a, b, hab⟩ := flatten_map_mem constLine hx
    unfold create_constants_content
    rw [hab]
    rw [show constantsFilePre ++ (a ++ constLine x ++ b) ++ "\n#endif\n".data =
      (constantsFilePre ++ a) ++ constLine x ++ (b ++ "\n#endif\n".data) by
        simp]
    exact containsSub_mid _ _ _
  have hinc : addConstInclude consts content = autoConstInclude ++ content := by
    unfold addConstInclude
    rw [if_pos href, if_neg (by simp [hni])]
  refine ⟨?_, ?_, hinc, ?_⟩
  · have h2 := hcontains _ hf
    rw [show constLine "DSRTOS_ERROR_FATAL".data =
      "#define DSRTOS_ERROR_FATAL             0x1000000AU\n".data by decide] at h2
    exact h2
  · have h2 := hcontains _ hh
    rw [show constLine "DSRTOS_HEAP_SIZE".data =
      "#define DSRTOS_HEAP_SIZE               32768U\n".data by decide] at h2
    exact h2
  · rw [hinc]
    rw [show autoConstInclude ++ content =
      "#include \"dsrtos_auto_constants.h\"".data ++ '\n' :: content by
        simp [autoConstInclude]]
    rw [countSub_split_notMem "#include \"dsrtos_auto_constants.h\"".data content
      (show '\n' ∉ autoConstHeaderName by decide)]
    have hpf : autoConstHeaderName.isPrefixOf ('\n' :: content) = false := by
      rw [show autoConstHeaderName = 'd' :: "srtos_auto_constants.h".data by decide]
      simp [List.isPrefixOf]
    rw [countSub_cons_not_prefixOf hpf]
    rw [containsSub_false_countSub hni]
    decide

/-- Witness for `c6_constants_synthesis` on a file referencing the heap-size
constant. -/
theorem c6_constants_synthesis_witness :
    containsSub "#define DSRTOS_ERROR_FATAL             0x1000000AU\n".data
      (create_constants_content
        ["DSRTOS_ERROR_FATAL".data, "DSRTOS_HEAP_SIZE".data]) = true ∧
    containsSub "#define DSRTOS_HEAP_SIZE               32768U\n".data
      (create_constants_content
        ["DSRTOS_ERROR_FATAL".data, "DSRTOS_HEAP_SIZE".data]) = true ∧
    addConstInclude ["DSRTOS_ERROR_FATAL".data, "DSRTOS_HEAP_SIZE".data]
        "int x = DSRTOS_HEAP_SIZE;\n".data =
      autoConstInclude ++ "int x = DSRTOS_HEAP_SIZE;\n".data ∧
    countSub autoConstHeaderName
      (addConstInclude ["DSRTOS_ERROR_FATAL".data, "DSRTOS_HEAP_SIZE".data]
        "int x = DSRTOS_HEAP_SIZE;\n".data) = 1 :=
  c6_constants_synthesis _ _ (by decide) (by decide) (by decide) (by decide)

/-! ## Forward declarations (`fix_forward_declaration_errors`)

The declaration-existence test is
`re.search(rf"^.*{symbol}\s*\(.*\)\s*;", content, re.MULTILINE)`.  Since
`^.*` reaches every position of every line, the search succeeds iff at some
position: the symbol occurs, followed by a whitespace run (which may cross
newlines: `\s` matches `\n`), an opening parenthesis, then — on that same
line (`.` does not match `\n`) — a closing parenthesis followed by a
whitespace run and a semicolon.  The scanners below decide exactly that
existential. -/

/-- `\s*;` at the head of `l` (the run before `;` must be all whitespace). -/
def wsThenSemiEx : List Char → Bool
  | [] => false
  | c :: rest => if c = ';' then true else (pyWs c && wsThenSemiEx rest)

/-- `.*\)\s*;` within the current line: some later `)` on this line is
followed by `\s*;`. -/
def sameLineCloseSemi : List Char → Bool
  | [] => false
  | c :: rest =>
    if c = '\n' then false
    else if c = ')' then (wsThenSemiEx rest || sameLineCloseSemi rest)
    else sameLineCloseSemi rest

/-- `\s*\(.*\)\s*;` at the head of `l`. -/
def wsParenCont : List Char → Bool
  | [] => false
  | c :: rest =>
    if c = '(' then sameLineCloseSemi rest
    else (pyWs c && wsParenCont rest)

/-- The declaration pattern anchored at the head of `l`. -/
def declAt (symbol l : List Char) : Bool :=
  match chopPre symbol l with
  | some r => wsParenCont r
  | none => false

/-- `re.search` of the declaration pattern anywhere in the content. -/
def declSearch (symbol : List Char) : List Char → Bool
  | [] => false
  | c :: rest => declAt symbol (c :: rest) || declSearch symbol rest

/-- Python `str.rfind`: index of the last occurrence of `needle`. -/
def rfindPos (needle : List Char) : List Char → Option Nat
  | [] => if needle.isEmpty then some 0 else none
  | c :: rest =>
    match rfindPos needle rest with
    | some i => some (i + 1)
    | none => if needle.isPrefixOf (c :: rest) then some 0 else none

/-- Python `str.find('\n', p)`: index of the first newline at or after `p`. -/
def findNlFrom (p : Nat) (l : List Char) : Option Nat :=
  match (l.drop p).findIdx? (fun c => c = '\n') with
  | some i => some (p + i)
  | none => none

/-- The inserted forward declaration text. -/
def declText (symbol : List Char) : List Char :=
  "\n/* Forward declaration */\nstatic dsrtos_result_t ".data ++ symbol ++
    "(void);\n".data

/-- One file's processing for one undeclared symbol: `some` with the new
content exactly when the file has a call-site usage, no existing declaration
line, and the last `#include` occurrence is at a position greater than zero;
the declaration is inserted after the newline that ends that include's line
(or at position 0 when no newline follows). -/
def tryInsertDecl (symbol content : List Char) : Option (List Char) :=
  if containsSub symbol content && containsSub (symbol ++ "(".data) content then
    if declSearch symbol content then none
    else
      match rfindPos "#include".data content with
      | some p =>
        if 0 < p then
          some (content.take
              (match findNlFrom p content with
               | some q => q + 1
               | none => 0) ++
            declText symbol ++
            content.drop
              (match findNlFrom p content with
               | some q => q + 1
               | none => 0))
        else none
      | none => none
  else none

/-- `fix_forward_declaration_errors`, restricted to one symbol: scan the
source files in order and rewrite the first file where an insertion succeeds,
leaving all other files untouched. -/
def fix_forward_declaration_errors (symbol : List Char) :
    List (List Char) → List (List Char)
  | [] => []
  | f :: fs =>
    match tryInsertDecl symbol f with
    | some f2 => f2 :: fs
    | none => f :: fix_forward_declaration_errors symbol fs

/-! ## Claim C8: forward declaration insertion -/

/-- C8 counterexample: a file whose only (and therefore last) `#include` sits
at position 0 has a call-site usage of `foo` and no declaration line, yet no
forward declaration is inserted — `rfind` returns 0 and the guard
`include_end > 0` rejects it, so the file is left unchanged. -/
theorem c8_counterexample :
    (containsSub "foo".data "#include <stdint.h>\nint x = foo(1) + 2;\n".data &&
     containsSub "foo(".data
       "#include <stdint.h>\nint x = foo(1) + 2;\n".data) = true ∧
    declSearch "foo".data "#include <stdint.h>\nint x = foo(1) + 2;\n".data = false ∧
    fix_forward_declaration_errors "foo".data
        ["#include <stdint.h>\nint x = foo(1) + 2;\n".data] =
      ["#include <stdint.h>\nint x = foo(1) + 2;\n".data] :=
  ⟨by decide, by decide, by decide⟩

/-- C8 (amended): if the first file with a call-site usage of the symbol, no
existing declaration line, a last `#include` occurrence at a position greater
than 0, and a newline after it, appears at the head of the scan order, then
the forward declaration is inserted into that file immediately after the
newline ending the line of its last `#include` occurrence, and all remaining
files are untouched (processing stops at the first successful insertion). -/
theorem c8_insert_after_last_include (symbol f : List Char)
    (rest : List (List Char)) (p q : Nat)
    (hu1 : containsSub symbol f = true)
    (hu2 : containsSub (symbol ++ "(".data) f = true)
    (hd : declSearch symbol f = false)
    (hp : rfindPos "#include".data f = some p) (hppos : 0 < p)
    (hq : findNlFrom p f = some q) :
    fix_forward_declaration_errors symbol (f :: rest) =
      (f.take (q + 1) ++ declText symbol ++ f.drop (q + 1)) :: rest := by
  have ht : tryInsertDecl symbol f =
      some (f.take (q + 1) ++ declText symbol ++ f.drop (q + 1)) := by
    unfold tryInsertDecl
    rw [hu1, hu2, hd, hp]
    simp [hppos, hq]
  cases rest with
  | nil => simp [fix_forward_declaration_errors, ht]
  | cons g gs => simp [fix_forward_declaration_errors, ht]

/-- Witness for `c8_insert_after_last_include`: the include line ends at
index 43, so the declaration is inserted at position 44; a second file in the
scan order stays untouched. -/
theorem c8_insert_after_last_include_witness :
    fix_forward_declaration_errors "foo".data
        ["typedef int dsrtos_result_t;\n#include <a.h>\nint x = foo(1) + 2;\n".data,
         "#include <stdint.h>\nint x = foo(1) + 2;\n".data] =
      ["typedef int dsrtos_result_t;\n#include <a.h>\nint x = foo(1) + 2;\n".data.take 44 ++
         declText "foo".data ++
         "typedef int dsrtos_result_t;\n#include <a.h>\nint x = foo(1) + 2;\n".data.drop 44,
       "#include <stdint.h>\nint x = foo(1) + 2;\n".data] :=
  c8_insert_after_last_include "foo".data
    "typedef int dsrtos_result_t;\n#include <a.h>\nint x = foo(1) + 2;\n".data
    ["#include <stdint.h>\nint x = foo(1) + 2;\n".data] 29 43
    (by decide) (by decide) (by decide) (by decide) (by decide) (by decide)

/-! ## Duplicate macro removal (`remove_duplicate_macros`)

`re.sub(rf"^#define\s+{re.escape(macro)}.*$", '', content, flags=re.MULTILINE)`
removes, from every position where a line starts, a match of
`#define` + `\s+` + macro + rest-of-line.  Python `\s` matches `\n`, so the
whitespace run may cross line boundaries (this happens exactly when a line
consists of `#define` followed only by whitespace); `.*$` then erases to the
end of the line in which the macro name matched.  Greedy `\s+` takes the
longest whitespace run after which the macro still matches. -/

/-- Greedy `\s+{mac}`: consume one or more whitespace characters, preferring
the longest run for which `mac` is a prefix of the remainder; return that
remainder. -/
def wsMacroGreedy (mac : List Char) : List Char → Option (List Char)
  | [] => none
  | c :: rest =>
    if pyWs c then
      match wsMacroGreedy mac rest with
      | some r => some r
      | none => chopPre mac rest
    else none

/-- Match `#define\s+{mac}.*$` at the head of `l` (a line-start position);
returns the remainder, which begins at the newline ending the matched line
(or is empty). -/
def matchDefineAt (mac l : List Char) : Option (List Char) :=
  match chopPre "#define".data l with
  | none => none
  | some r1 =>
    match wsMacroGreedy mac r1 with
    | none => none
    | some r2 => some (r2.dropWhile (fun c => c != '\n'))

/-- One scan step at a line start: on a match emit nothing and continue at
the match end, otherwise emit the line unchanged. -/
def rmStep (mac l : List Char) : List Char × List Char :=
  match matchDefineAt mac l with
  | some r => ([], r)
  | none => (l.takeWhile (fun c => c != '\n'), l.dropWhile (fun c => c != '\n'))

/-- Fuelled `re.sub` scanner over line starts. -/
def removeMacroAux (mac : List Char) : Nat → List Char → List Char
  | 0, l => l
  | fuel + 1, l =>
    match (rmStep mac l).2 with
    | [] => (rmStep mac l).1
    | c :: rest => (rmStep mac l).1 ++ c :: removeMacroAux mac fuel rest

/-- `re.sub` of the `^#define\s+{mac}.*$` pattern with the empty string. -/
def removeMacroLines (mac content : List Char) : List Char :=
  removeMacroAux mac content.length content

/-- `remove_duplicate_macros`: for each macro in order, rewrite every source
file. -/
def remove_duplicate_macros (macs : List (List Char))
    (files : List (List Char)) : List (List Char) :=
  macs.foldl (fun fs mac => fs.map (removeMacroLines mac)) files

/-- A line (no newline inside) beginning with `#define`, whitespace, then the
macro name — what one single-line match of the pattern removes. -/
def lineMatches (mac line : List Char) : Bool :=
  match chopPre "#define".data line with
  | none => false
  | some t => (wsMacroGreedy mac t).isSome

/-- A line that is `#define` followed only by whitespace (the configuration
that lets `\s+` cross into following lines). -/
def isBareDefine (line : List Char) : Bool :=
  "#define".data.isPrefixOf line && (line.drop 7).all pyWs

/-- Fuelled conjunction of a predicate over the lines of a text. -/
def allLinesAux (p : List Char → Bool) : Nat → List Char → Bool
  | 0, l => p l
  | fuel + 1, l =>
    p (l.takeWhile (fun c => c != '\n')) &&
    (match l.dropWhile (fun c => c != '\n') with
     | [] => true
     | _ :: rest => allLinesAux p fuel rest)

/-- `allLines p l`: `p` holds on every line of `l` (splitting on `\n`). -/
def allLines (p : List Char → Bool) (l : List Char) : Bool :=
  allLinesAux p l.length l

/-- No line of the text is a bare `#define`-plus-whitespace line. -/
def noBareDefine (l : List Char) : Bool :=
  allLines (fun line => !isBareDefine line) l

/-! ### Infrastructure for the macro-removal proofs -/

theorem takeWhile_all_append {p : Char → Bool} {a : List Char} (b : List Char)
    (h : ∀ x ∈ a, p x = true) : (a ++ b).takeWhile p = a ++ b.takeWhile p := by
  induction a with
  | nil => simp
  | cons c a' ih =>
    have hc : p c = true := h c (by simp)
    simp only [List.cons_append, List.takeWhile_cons, hc]
    rw [ih (fun x hx => h x (by simp [hx]))]
    simp

theorem dropWhile_all_append {p : Char → Bool} {a : List Char} (b : List Char)
    (h : ∀ x ∈ a, p x = true) : (a ++ b).dropWhile p = b.dropWhile p := by
  induction a with
  | nil => simp
  | cons c a' ih =>
    have hc : p c = true := h c (by simp)
    simp only [List.cons_append, List.dropWhile_cons, hc]
    exact ih (fun x hx => h x (by simp [hx]))

theorem all_of_dropWhile_nil {p : Char → Bool} {a : List Char}
    (h : a.dropWhile p = []) : ∀ x ∈ a, p x = true := by
  induction a with
  | nil => simp
  | cons c a' ih =>
    intro x hx
    by_cases hc : p c = true
    · rw [List.dropWhile_cons, if_pos hc] at h
      rcases List.mem_cons.mp hx with he | he
      · rw [he]; exact hc
      · exact ih h x he
    · rw [List.dropWhile_cons, if_neg hc] at h
      simp at h

theorem takeWhile_of_all {p : Char → Bool} {a : List Char}
    (h : ∀ x ∈ a, p x = true) : a.takeWhile p = a := by
  induction a with
  | nil => simp
  | cons c a' ih =>
    rw [List.takeWhile_cons, if_pos (h c (by simp))]
    rw [ih (fun x hx => h x (by simp [hx]))]

theorem dropWhile_of_all {p : Char → Bool} {a : List Char}
    (h : ∀ x ∈ a, p x = true) : a.dropWhile p = [] := by
  induction a with
  | nil => simp
  | cons c a' ih =>
    rw [List.dropWhile_cons, if_pos (h c (by simp))]
    exact ih (fun x hx => h x (by simp [hx]))

theorem mem_takeWhile_p {p : Char → Bool} {a : List Char} {x : Char}
    (hx : x ∈ a.takeWhile p) : p x = true := by
  induction a with
  | nil => simp at hx
  | cons c a' ih =>
    rw [List.takeWhile_cons] at hx
    by_cases hc : p c = true
    · rw [if_pos hc] at hx
      rcases List.mem_cons.mp hx with he | he
      · rw [he]; exact hc
      · exact ih he
    · rw [if_neg hc] at hx
      simp at hx

theorem dropWhile_nl_shape (l : List Char) :
    l.dropWhile (fun c => c != '\n') = [] ∨
      ∃ rest, l.dropWhile (fun c => c != '\n') = '\n' :: rest := by
  induction l with
  | nil => exact Or.inl rfl
  | cons c rest ih =>
    by_cases hc : c = '\n'
    · subst hc
      exact Or.inr ⟨rest, by simp [List.dropWhile_cons]⟩
    · rw [List.dropWhile_cons, if_pos (by simp [hc])]
      exact ih

theorem chopPre_mono {p t r : List Char} (u : List Char)
    (h : chopPre p t = some r) : chopPre p (t ++ u) = some (r ++ u) := by
  rw [chopPre_eq_append h, List.append_assoc]
  exact chopPre_append_self p (r ++ u)

theorem chopPre_isSome_of_block {p A R : List Char} {c : Char}
    (hnc : c ∉ p) (h : (chopPre p (A ++ c :: R)).isSome = true) :
    (chopPre p A).isSome = true := by
  induction p generalizing A with
  | nil => simp [chopPre]
  | cons x xs ih =>
    cases A with
    | nil =>
      simp only [List.nil_append, chopPre] at h
      by_cases hx : x = c
      · exact absurd (by rw [← hx]; exact List.mem_cons_self x xs) hnc
      · rw [if_neg hx] at h
        simp at h
    | cons a A' =>
      simp only [List.cons_append, chopPre] at h ⊢
      by_cases hx : x = a
      · rw [if_pos hx] at h ⊢
        exact ih (fun hm => hnc (by simp [hm])) h
      · rw [if_neg hx] at h
        simp at h

theorem wsMacroGreedy_length {mac : List Char} :
    ∀ {l r : List Char}, wsMacroGreedy mac l = some r → r.length < l.length := by
  intro l
  induction l with
  | nil => intro r h; simp [wsMacroGreedy] at h
  | cons c rest ih =>
    intro r h
    rw [wsMacroGreedy] at h
    by_cases hc : pyWs c = true
    · rw [if_pos hc] at h
      cases hi : wsMacroGreedy mac rest with
      | some r2 =>
        rw [hi] at h
        have := ih hi
        have hr : r2 = r := by simpa using h
        subst hr
        simp only [List.length_cons]
        omega
      | none =>
        rw [hi] at h
        have := chopPre_length_le h
        simp only [List.length_cons]
        omega
    · rw [if_neg hc] at h
      simp at h

theorem wsMacroGreedy_suffix {mac : List Char} :
    ∀ {l r : List Char}, wsMacroGreedy mac l = some r → ∃ a, l = a ++ r := by
  intro l
  induction l with
  | nil => intro r h; simp [wsMacroGreedy] at h
  | cons c rest ih =>
    intro r h
    rw [wsMacroGreedy] at h
    by_cases hc : pyWs c = true
    · rw [if_pos hc] at h
      cases hi : wsMacroGreedy mac rest with
      | some r2 =>
        rw [hi] at h
        have hr : r2 = r := by simpa using h
        subst hr
        obtain ⟨a, ha⟩ := ih hi
        exact ⟨c :: a, by simp [ha]⟩
      | none =>
        rw [hi] at h
        exact ⟨c :: mac, by simp [chopPre_eq_append h]⟩
    · rw [if_neg hc] at h
      simp at h

theorem wsMacroGreedy_mono {mac t : List Char} (u : List Char)
    (h : (wsMacroGreedy mac t).isSome = true) :
    (wsMacroGreedy mac (t ++ u)).isSome = true := by
  induction t with
  | nil => simp [wsMacroGreedy] at h
  | cons c rest ih =>
    rw [wsMacroGreedy] at h
    by_cases hc : pyWs c = true
    · rw [if_pos hc] at h
      simp only [List.cons_append, List.append_eq, wsMacroGreedy, if_pos hc]
      cases hi : wsMacroGreedy mac (rest ++ u) with
      | some r2 => simp
      | none =>
        cases hj : wsMacroGreedy mac rest with
        | some r3 =>
          have := ih (by simp [hj])
          rw [hi] at this
          simp at this
        | none =>
          rw [hj] at h
          simp only [hi]
          cases hk : chopPre mac rest with
          | some r4 =>
            rw [chopPre_mono u hk]
            simp
          | none => rw [hk] at h; simp at h
    · rw [if_neg hc] at h
      simp at h

theorem matchDefineAt_length {mac l r : List Char}
    (h : matchDefineAt mac l = some r) : r.length < l.length := by
  unfold matchDefineAt at h
  cases h1 : chopPre "#define".data l with
  | none => rw [h1] at h; simp at h
  | some r1 =>
    simp only [h1] at h
    cases h2 : wsMacroGreedy mac r1 with
    | none => rw [h2] at h; simp at h
    | some r2 =>
      rw [h2] at h
      have hr : r2.dropWhile (fun c => c != '\n') = r := by simpa using h
      have hd : (r2.dropWhile (fun c => c != '\n')).length ≤ r2.length :=
        (r2.dropWhile_sublist (p := fun c => c != '\n')).length_le
      have h3 := wsMacroGreedy_length h2
      have h4 : l.length = 7 + r1.length := by
        rw [chopPre_eq_append h1]
        simp
        omega
      rw [← hr]
      omega

theorem matchDefineAt_shape {mac l r : List Char}
    (h : matchDefineAt mac l = some r) :
    (∃ a, l = a ++ r) ∧ (r = [] ∨ ∃ rest, r = '\n' :: rest) := by
  unfold matchDefineAt at h
  cases h1 : chopPre "#define".data l with
  | none => rw [h1] at h; simp at h
  | some r1 =>
    simp only [h1] at h
    cases h2 : wsMacroGreedy mac r1 with
    | none => rw [h2] at h; simp at h
    | some r2 =>
      rw [h2] at h
      have hr : r2.dropWhile (fun c => c != '\n') = r := by simpa using h
      constructor
      · obtain ⟨a2, ha2⟩ := wsMacroGreedy_suffix h2
        refine ⟨"#define".data ++ a2 ++ r2.takeWhile (fun c => c != '\n'), ?_⟩
        rw [chopPre_eq_append h1, ha2, ← hr]
        simp
      · rcases dropWhile_nl_shape r2 with hs | ⟨rest, hs⟩
        · exact Or.inl (by rw [← hr, hs])
        · exact Or.inr ⟨rest, by rw [← hr, hs]⟩

theorem rmStep_cons {mac l : List Char} {c : Char} {rest : List Char}
    (h : (rmStep mac l).2 = c :: rest) :
    c = '\n' ∧ rest.length < l.length ∧ ∃ a, l = a ++ '\n' :: rest := by
  unfold rmStep at h
  cases hm : matchDefineAt mac l with
  | some r =>
    simp only [hm] at h
    obtain ⟨⟨a, ha⟩, hsh⟩ := matchDefineAt_shape hm
    rcases hsh with hnil | ⟨rest2, hcons⟩
    · rw [hnil] at h; simp at h
    · rw [hcons] at h ha
      injection h with ha1 ha2
      subst ha2
      have hlen := matchDefineAt_length hm
      rw [hcons] at hlen
      refine ⟨ha1.symm, ?_, ⟨a, ha⟩⟩
      simp only [List.length_cons] at hlen
      omega
  | none =>
    simp only [hm] at h
    rcases dropWhile_nl_shape l with hs | ⟨rest2, hs⟩
    · rw [hs] at h; simp at h
    · rw [hs] at h
      injection h with ha1 ha2
      subst ha2
      have hlen : (l.dropWhile (fun c => c != '\n')).length ≤ l.length :=
        (l.dropWhile_sublist (p := fun c => c != '\n')).length_le
      rw [hs] at hlen
      refine ⟨ha1.symm, ?_, ?_⟩
      · simp only [List.length_cons] at hlen
        omega
      · refine ⟨l.takeWhile (fun c => c != '\n'), ?_⟩
        conv_lhs => rw [← List.takeWhile_append_dropWhile
          (p := fun c => c != '\n') (l := l)]
        rw [hs]

theorem removeMacroAux_nil (mac : List Char) (fuel : Nat) :
    removeMacroAux mac fuel [] = [] := by
  cases fuel with
  | zero => rfl
  | succ f =>
    have hstep : rmStep mac [] = ([], []) := by
      unfold rmStep matchDefineAt
      rw [show chopPre "#define".data ([] : List Char) = none from rfl]
      simp
    rw [removeMacroAux, hstep]

theorem removeMacroAux_congr (mac : List Char) :
    ∀ f1 : Nat, ∀ {f2 : Nat} {l : List Char}, l.length ≤ f1 → l.length ≤ f2 →
      removeMacroAux mac f1 l = removeMacroAux mac f2 l := by
  intro f1
  induction f1 with
  | zero =>
    intro f2 l h1 _
    have : l = [] := List.length_eq_zero.mp (by omega)
    subst this
    rw [removeMacroAux_nil, removeMacroAux_nil]
  | succ g ih =>
    intro f2 l h1 h2
    cases hl : l with
    | nil => rw [removeMacroAux_nil, removeMacroAux_nil]
    | cons c0 ls =>
      cases f2 with
      | zero =>
        subst hl
        simp at h2
      | succ h =>
        subst hl
        rw [removeMacroAux, removeMacroAux]
        cases hs : (rmStep mac (c0 :: ls)).2 with
        | nil => simp only [hs]
        | cons c rest =>
          obtain ⟨_, hlen, _⟩ := rmStep_cons hs
          simp only [hs]
          simp only [List.length_cons] at h1 h2 hlen
          rw [@ih h rest (by omega) (by omega)]

theorem removeMacroLines_eq (mac l : List Char) :
    removeMacroLines mac l =
      match (rmStep mac l).2 with
      | [] => (rmStep mac l).1
      | c :: rest => (rmStep mac l).1 ++ c :: removeMacroLines mac rest := by
  cases hl : l with
  | nil =>
    have hstep : rmStep mac [] = ([], []) := by
      unfold rmStep matchDefineAt
      rw [show chopPre "#define".data ([] : List Char) = none from rfl]
      simp
    rw [show removeMacroLines mac [] = [] from rfl, hstep]
  | cons c0 ls =>
    subst hl
    show removeMacroAux mac (c0 :: ls).length (c0 :: ls) = _
    rw [show (c0 :: ls).length = ls.length + 1 from rfl, removeMacroAux]
    cases hs : (rmStep mac (c0 :: ls)).2 with
    | nil => simp only [hs]
    | cons c rest =>
      obtain ⟨_, hlen, _⟩ := rmStep_cons hs
      simp only [hs]
      simp only [List.length_cons] at hlen
      rw [removeMacroAux_congr mac ls.length (by omega) (le_refl _)]
      rfl

theorem allLinesAux_nil (p : List Char → Bool) (fuel : Nat) :
    allLinesAux p fuel [] = p [] := by
  cases fuel with
  | zero => rfl
  | succ f =>
    rw [allLinesAux]
    simp

theorem allLinesAux_congr (p : List Char → Bool) :
    ∀ f1 : Nat, ∀ {f2 : Nat} {l : List Char}, l.length ≤ f1 → l.length ≤ f2 →
      allLinesAux p f1 l = allLinesAux p f2 l := by
  intro f1
  induction f1 with
  | zero =>
    intro f2 l h1 _
    have : l = [] := List.length_eq_zero.mp (by omega)
    subst this
    rw [allLinesAux_nil, allLinesAux_nil]
  | succ g ih =>
    intro f2 l h1 h2
    cases hl : l with
    | nil => rw [allLinesAux_nil, allLinesAux_nil]
    | cons c0 ls =>
      cases f2 with
      | zero =>
        subst hl
        simp at h2
      | succ h =>
        subst hl
        rw [allLinesAux, allLinesAux]
        cases hs : (c0 :: ls).dropWhile (fun c => c != '\n') with
        | nil => simp only [hs]
        | cons c rest =>
          have hlen : ((c0 :: ls).dropWhile (fun c => c != '\n')).length ≤
              (c0 :: ls).length :=
            (List.dropWhile_sublist _).length_le
          rw [hs] at hlen
          simp only [hs]
          simp only [List.length_cons] at h1 h2 hlen
          rw [@ih h rest (by omega) (by omega)]

theorem allLines_eq (p : List Char → Bool) (l : List Char) :
    allLines p l =
      (p (l.takeWhile (fun c => c != '\n')) &&
        (match l.dropWhile (fun c => c != '\n') with
         | [] => true
         | _ :: rest => allLines p rest)) := by
  cases hl : l with
  | nil =>
    rw [show allLines p [] = p [] from rfl]
    simp
  | cons c0 ls =>
    subst hl
    show allLinesAux p (ls.length + 1) (c0 :: ls) = _
    rw [allLinesAux]
    cases hs : (c0 :: ls).dropWhile (fun c => c != '\n') with
    | nil => simp only [hs]
    | cons c rest =>
      have hlen : ((c0 :: ls).dropWhile (fun c => c != '\n')).length ≤
          (c0 :: ls).length :=
        (List.dropWhile_sublist _).length_le
      rw [hs] at hlen
      simp only [hs]
      simp only [List.length_cons] at hlen
      rw [allLinesAux_congr p ls.length (by omega) (le_refl _)]
      rfl

theorem band_true_parts {a b : Bool} (h : (a && b) = true) :
    a = true ∧ b = true := by
  simp only [Bool.and_eq_true] at h
  exact h

theorem wsMacroGreedy_restrict {mac : List Char} (hnl : '\n' ∉ mac) :
    ∀ {t R : List Char}, t.all pyWs = false →
      (wsMacroGreedy mac (t ++ '\n' :: R)).isSome = true →
      (wsMacroGreedy mac t).isSome = true := by
  intro t
  induction t with
  | nil => intro R h _; simp at h
  | cons c t2 ih =>
    intro R hall hfull
    simp only [List.cons_append, List.append_eq, wsMacroGreedy] at hfull ⊢
    by_cases hc : pyWs c = true
    · rw [if_pos hc] at hfull ⊢
      have hall2 : t2.all pyWs = false := by
        simp only [List.all_cons, hc, Bool.true_and] at hall
        exact hall
      cases hj : wsMacroGreedy mac t2 with
      | some r3 => simp
      | none =>
        simp only [hj]
        cases hi : wsMacroGreedy mac (t2 ++ '\n' :: R) with
        | some r2 =>
          have hsome := ih (R := R) hall2 (by rw [hi]; simp)
          rw [hj] at hsome
          simp at hsome
        | none =>
          rw [hi] at hfull
          have hblock := chopPre_isSome_of_block hnl hfull
          cases hk : chopPre mac t2 with
          | some r4 => simp
          | none => rw [hk] at hblock; simp at hblock
    · rw [if_neg hc] at hfull
      simp at hfull

theorem lineMatches_nil (mac : List Char) : lineMatches mac [] = false := by
  unfold lineMatches
  rw [show chopPre "#define".data ([] : List Char) = none from rfl]

theorem allLines_append_nl {p : List Char → Bool} {t : List Char} (X : List Char)
    (ht : '\n' ∉ t) :
    allLines p (t ++ '\n' :: X) = (p t && allLines p X) := by
  have hall : ∀ x ∈ t, (fun c => c != '\n') x = true := by
    intro x hx
    simp only [bne_iff_ne, ne_eq]
    intro he
    exact ht (he ▸ hx)
  rw [allLines_eq, takeWhile_all_append ('\n' :: X) hall,
    dropWhile_all_append ('\n' :: X) hall]
  rw [show ('\n' :: X).takeWhile (fun c => c != '\n') = [] from by
    simp [List.takeWhile_cons]]
  rw [show ('\n' :: X).dropWhile (fun c => c != '\n') = '\n' :: X from by
    simp [List.dropWhile_cons]]
  simp

theorem allLines_tail_of_append {p : List Char → Bool} :
    ∀ n : Nat, ∀ {a X : List Char}, a.length ≤ n →
      allLines p (a ++ '\n' :: X) = true → allLines p X = true := by
  intro n
  induction n with
  | zero =>
    intro a X h1 h2
    have ha : a = [] := List.length_eq_zero.mp (by omega)
    subst ha
    rw [allLines_append_nl X (by simp)] at h2
    exact (band_true_parts h2).2
  | succ m ih =>
    intro a X h1 h2
    rcases dropWhile_nl_shape a with hd | ⟨a2, hd⟩
    · have hnl : '\n' ∉ a := by
        intro hm2
        have := all_of_dropWhile_nil hd '\n' hm2
        simp at this
      rw [allLines_append_nl X hnl] at h2
      exact (band_true_parts h2).2
    · have ha : a = a.takeWhile (fun c => c != '\n') ++ '\n' :: a2 := by
        conv_lhs => rw [← List.takeWhile_append_dropWhile
          (p := fun c => c != '\n') (l := a)]
        rw [hd]
      have hnl : '\n' ∉ a.takeWhile (fun c => c != '\n') := by
        intro hm2
        have := mem_takeWhile_p hm2
        simp at this
      have hlen : a2.length < a.length := by
        have hsub : (a.dropWhile (fun c => c != '\n')).length ≤ a.length :=
          (a.dropWhile_sublist _).length_le
        rw [hd] at hsub
        simp only [List.length_cons] at hsub
        omega
      rw [ha, List.append_assoc] at h2
      simp only [List.cons_append] at h2
      rw [allLines_append_nl _ hnl] at h2
      exact ih (a := a2) (by omega) (band_true_parts h2).2

theorem lineMatches_take_matchDefine {mac l : List Char}
    (h : lineMatches mac (l.takeWhile (fun c => c != '\n')) = true) :
    (matchDefineAt mac l).isSome = true := by
  unfold lineMatches at h
  cases h1 : chopPre "#define".data (l.takeWhile (fun c => c != '\n')) with
  | none => rw [h1] at h; simp at h
  | some tt =>
    simp only [h1] at h
    have hts : l.takeWhile (fun c => c != '\n') = "#define".data ++ tt :=
      chopPre_eq_append h1
    have hl : l = "#define".data ++
        (tt ++ l.dropWhile (fun c => c != '\n')) := by
      conv_lhs => rw [← List.takeWhile_append_dropWhile
        (p := fun c => c != '\n') (l := l)]
      rw [hts, List.append_assoc]
    cases h3 : wsMacroGreedy mac (tt ++ l.dropWhile (fun c => c != '\n')) with
    | none =>
      exfalso
      have h2 := wsMacroGreedy_mono (l.dropWhile (fun c => c != '\n')) h
      rw [h3] at h2
      simp at h2
    | some r2 =>
      have hmd : matchDefineAt mac l =
          some (r2.dropWhile (fun c => c != '\n')) := by
        unfold matchDefineAt
        rw [hl, chopPre_append_self]
        simp only [h3]
      rw [hmd]
      simp

theorem matchDefine_line_of_some {mac l r : List Char}
    (hnl : '\n' ∉ mac)
    (hbare : isBareDefine (l.takeWhile (fun c => c != '\n')) = false)
    (h : matchDefineAt mac l = some r) :
    lineMatches mac (l.takeWhile (fun c => c != '\n')) = true := by
  unfold matchDefineAt at h
  cases h1 : chopPre "#define".data l with
  | none => rw [h1] at h; simp at h
  | some r1 =>
    simp only [h1] at h
    cases h2 : wsMacroGreedy mac r1 with
    | none => rw [h2] at h; simp at h
    | some r2 =>
      have hl := chopPre_eq_append h1
      have hdef : ∀ x ∈ "#define".data, (fun c => c != '\n') x = true := by decide
      have ht : l.takeWhile (fun c => c != '\n') =
          "#define".data ++ r1.takeWhile (fun c => c != '\n') := by
        rw [hl, takeWhile_all_append _ hdef]
      unfold lineMatches
      rw [ht, chopPre_append_self]
      rcases dropWhile_nl_shape r1 with hdw | ⟨rr, hdw⟩
      · rw [takeWhile_of_all (all_of_dropWhile_nil hdw)]
        simp only [h2]
        simp
      · have hr1 : r1 = r1.takeWhile (fun c => c != '\n') ++ '\n' :: rr := by
          conv_lhs => rw [← List.takeWhile_append_dropWhile
            (p := fun c => c != '\n') (l := r1)]
          rw [hdw]
        have hball : (r1.takeWhile (fun c => c != '\n')).all pyWs = false := by
          rw [ht] at hbare
          unfold isBareDefine at hbare
          rw [isPrefixOf_append_left] at hbare
          rw [show (("#define".data ++
              r1.takeWhile (fun c => c != '\n')).drop 7) =
            r1.takeWhile (fun c => c != '\n') from by
              rw [show (7 : Nat) = "#define".data.length from rfl]
              exact List.drop_left _ _] at hbare
          simpa using hbare
        have hfull : (wsMacroGreedy mac
            (r1.takeWhile (fun c => c != '\n') ++ '\n' :: rr)).isSome = true := by
          rw [← hr1, h2]
          simp
        have hres := wsMacroGreedy_restrict hnl hball hfull
        cases hk : wsMacroGreedy mac (r1.takeWhile (fun c => c != '\n')) with
        | some r4 => simp only [hk]; simp
        | none => rw [hk] at hres; simp at hres

/-- Completeness of one substitution pass: every line of the result fails the
single-line `#define`-whitespace-macro pattern (no hypotheses needed: a line
that still matched would have produced a match of the full pattern at its
line start). -/
theorem removeMacro_clean_aux (mac : List Char) :
    ∀ n : Nat, ∀ {l : List Char}, l.length ≤ n →
      allLines (fun line => !lineMatches mac line)
        (removeMacroLines mac l) = true := by
  intro n
  induction n with
  | zero =>
    intro l hlen
    have hl : l = [] := List.length_eq_zero.mp (by omega)
    subst hl
    show (!(lineMatches mac [])) = true
    rw [lineMatches_nil]
    rfl
  | succ m ih =>
    intro l hlen
    rw [removeMacroLines_eq]
    cases hs : (rmStep mac l).2 with
    | nil =>
      simp only [hs]
      cases hm : matchDefineAt mac l with
      | some r =>
        have hfst : (rmStep mac l).1 = [] := by
          unfold rmStep
          simp only [hm]
        rw [hfst]
        show (!(lineMatches mac [])) = true
        rw [lineMatches_nil]
        rfl
      | none =>
        have hfst : (rmStep mac l).1 = l.takeWhile (fun c => c != '\n') := by
          unfold rmStep
          simp only [hm]
        rw [hfst]
        have hallp : ∀ x ∈ l.takeWhile (fun c => c != '\n'),
            (fun c => c != '\n') x = true :=
          fun x hx => mem_takeWhile_p (p := fun c => c != '\n') hx
        rw [allLines_eq, takeWhile_of_all hallp, dropWhile_of_all hallp]
        simp only [Bool.and_true]
        by_cases hlm : lineMatches mac (l.takeWhile (fun c => c != '\n')) = true
        · exfalso
          have hsome := lineMatches_take_matchDefine hlm
          rw [hm] at hsome
          simp at hsome
        · rw [Bool.eq_false_iff.mpr hlm]
          rfl
    | cons c rest =>
      obtain ⟨hc, hrl, _⟩ := rmStep_cons hs
      subst hc
      simp only [hs]
      cases hm : matchDefineAt mac l with
      | some r =>
        have hfst : (rmStep mac l).1 = [] := by
          unfold rmStep
          simp only [hm]
        rw [hfst]
        rw [allLines_append_nl _ (by simp : '\n' ∉ ([] : List Char))]
        rw [ih (l := rest) (by omega)]
        rw [show (!(lineMatches mac [])) = true from by rw [lineMatches_nil]; rfl]
        rfl
      | none =>
        have hfst : (rmStep mac l).1 = l.takeWhile (fun c => c != '\n') := by
          unfold rmStep
          simp only [hm]
        rw [hfst]
        have hnt : '\n' ∉ l.takeWhile (fun c => c != '\n') := by
          intro hm2
          have := mem_takeWhile_p hm2
          simp at this
        rw [allLines_append_nl _ hnt]
        rw [ih (l := rest) (by omega)]
        by_cases hlm : lineMatches mac (l.takeWhile (fun c => c != '\n')) = true
        · exfalso
          have hsome := lineMatches_take_matchDefine hlm
          rw [hm] at hsome
          simp at hsome
        · rw [Bool.eq_false_iff.mpr hlm]
          rfl

/-- A predicate true of the empty line and of every line of `l` is true of
every line of the substituted text: the pass only deletes lines, empties
them, or passes them through. -/
theorem removeMacro_preserves_aux (mac : List Char) (p : List Char → Bool)
    (hpnil : p [] = true) :
    ∀ n : Nat, ∀ {l : List Char}, l.length ≤ n → allLines p l = true →
      allLines p (removeMacroLines mac l) = true := by
  intro n
  induction n with
  | zero =>
    intro l hlen _
    have hl : l = [] := List.length_eq_zero.mp (by omega)
    subst hl
    show p [] = true
    exact hpnil
  | succ m ih =>
    intro l hlen hall
    rw [removeMacroLines_eq]
    cases hs : (rmStep mac l).2 with
    | nil =>
      simp only [hs]
      cases hm : matchDefineAt mac l with
      | some r =>
        have hfst : (rmStep mac l).1 = [] := by
          unfold rmStep
          simp only [hm]
        rw [hfst]
        show p [] = true
        exact hpnil
      | none =>
        have hfst : (rmStep mac l).1 = l.takeWhile (fun c => c != '\n') := by
          unfold rmStep
          simp only [hm]
        rw [hfst]
        have hallp : ∀ x ∈ l.takeWhile (fun c => c != '\n'),
            (fun c => c != '\n') x = true :=
          fun x hx => mem_takeWhile_p (p := fun c => c != '\n') hx
        rw [allLines_eq, takeWhile_of_all hallp, dropWhile_of_all hallp]
        simp only [Bool.and_true]
        rw [allLines_eq] at hall
        exact (band_true_parts hall).1
    | cons c rest =>
      obtain ⟨hc, hrl, ⟨a, ha⟩⟩ := rmStep_cons hs
      subst hc
      simp only [hs]
      have hrest : allLines p rest = true := by
        rw [ha] at hall
        exact allLines_tail_of_append a.length (le_refl _) hall
      cases hm : matchDefineAt mac l with
      | some r =>
        have hfst : (rmStep mac l).1 = [] := by
          unfold rmStep
          simp only [hm]
        rw [hfst]
        rw [allLines_append_nl _ (by simp : '\n' ∉ ([] : List Char))]
        rw [ih (l := rest) (by omega)
          hrest, hpnil]
        rfl
      | none =>
        have hfst : (rmStep mac l).1 = l.takeWhile (fun c => c != '\n') := by
          unfold rmStep
          simp only [hm]
        rw [hfst]
        have hnt : '\n' ∉ l.takeWhile (fun c => c != '\n') := by
          intro hm2
          have := mem_takeWhile_p hm2
          simp at this
        rw [allLines_append_nl _ hnt]
        rw [ih (l := rest) (by omega)
          hrest]
        rw [allLines_eq] at hall
        rw [(band_true_parts hall).1]
        rfl

/-- On a text whose lines are all clean for `mac` and which has no bare
`#define` line, the substitution changes nothing (for a macro without
newlines). -/
theorem removeMacro_id_aux (mac : List Char) (hnl : '\n' ∉ mac) :
    ∀ n : Nat, ∀ {l : List Char}, l.length ≤ n →
      noBareDefine l = true →
      allLines (fun line => !lineMatches mac line) l = true →
      removeMacroLines mac l = l := by
  intro n
  induction n with
  | zero =>
    intro l hlen _ _
    have hl : l = [] := List.length_eq_zero.mp (by omega)
    subst hl
    rfl
  | succ m ih =>
    intro l hlen hbare hclean
    have hmd : matchDefineAt mac l = none := by
      cases hm : matchDefineAt mac l with
      | none => rfl
      | some r =>
        exfalso
        have hbf : isBareDefine (l.takeWhile (fun c => c != '\n')) = false := by
          unfold noBareDefine at hbare
          rw [allLines_eq] at hbare
          have h1 := (band_true_parts hbare).1
          simp only [Bool.not_eq_true'] at h1
          exact h1
        have hlm := matchDefine_line_of_some hnl hbf hm
        rw [allLines_eq] at hclean
        have h2 := (band_true_parts hclean).1
        rw [hlm] at h2
        simp at h2
    have hstep : rmStep mac l =
        (l.takeWhile (fun c => c != '\n'), l.dropWhile (fun c => c != '\n')) := by
      unfold rmStep
      simp only [hmd]
    rw [removeMacroLines_eq]
    rw [hstep]
    rcases dropWhile_nl_shape l with hd | ⟨rest, hd⟩
    · simp only [hd]
      conv_rhs => rw [← List.takeWhile_append_dropWhile
        (p := fun c => c != '\n') (l := l)]
      rw [hd]
      simp
    · simp only [hd]
      have hl2 : l = l.takeWhile (fun c => c != '\n') ++ '\n' :: rest := by
        conv_lhs => rw [← List.takeWhile_append_dropWhile
          (p := fun c => c != '\n') (l := l)]
        rw [hd]
      have hnt : '\n' ∉ l.takeWhile (fun c => c != '\n') := by
        intro hm2
        have := mem_takeWhile_p hm2
        simp at this
      have hrl : rest.length < l.length := by
        have hsub : (l.dropWhile (fun c => c != '\n')).length ≤ l.length :=
          (l.dropWhile_sublist _).length_le
        rw [hd] at hsub
        simp only [List.length_cons] at hsub
        omega
      have hbare2 : noBareDefine rest = true := by
        unfold noBareDefine at hbare ⊢
        rw [hl2, allLines_append_nl _ hnt] at hbare
        exact (band_true_parts hbare).2
      have hclean2 : allLines (fun line => !lineMatches mac line) rest = true := by
        rw [hl2, allLines_append_nl _ hnt] at hclean
        exact (band_true_parts hclean).2
      rw [ih (l := rest) (by omega) hbare2 hclean2]
      exact hl2.symm

/-- One file's processing under the whole macro set, in the order of the
outer loop. -/
def applyMacs (macs : List (List Char)) (f : List Char) : List Char :=
  macs.foldl (fun c mac => removeMacroLines mac c) f

theorem fold_map_comm : ∀ macs files : List (List Char),
    remove_duplicate_macros macs files = files.map (applyMacs macs) := by
  intro macs
  induction macs with
  | nil =>
    intro files
    show files = files.map (applyMacs [])
    rw [show applyMacs [] = fun f => f from rfl, List.map_id']
  | cons m ms ih =>
    intro files
    show remove_duplicate_macros ms (files.map (removeMacroLines m)) =
      files.map (applyMacs (m :: ms))
    rw [ih, List.map_map]
    rfl

theorem applyMacs_preserves (p : List Char → Bool) (hpnil : p [] = true) :
    ∀ macs : List (List Char), ∀ f, allLines p f = true →
      allLines p (applyMacs macs f) = true := by
  intro macs
  induction macs with
  | nil => intro f h; exact h
  | cons m ms ih =>
    intro f h
    exact ih _ (removeMacro_preserves_aux m p hpnil f.length (le_refl _) h)

theorem applyMacs_clean : ∀ macs : List (List Char), ∀ f mac, mac ∈ macs →
    allLines (fun line => !lineMatches mac line) (applyMacs macs f) = true := by
  intro macs
  induction macs with
  | nil => intro f mac h; simp at h
  | cons m ms ih =>
    intro f mac h
    rcases List.mem_cons.mp h with he | he
    · subst he
      exact applyMacs_preserves _ (by simp [lineMatches_nil]) ms _
        (removeMacro_clean_aux mac f.length (le_refl _))
    · exact ih _ mac he

theorem applyMacs_id (g : List Char) : ∀ macs : List (List Char),
    (∀ mac ∈ macs, '\n' ∉ mac) →
    noBareDefine g = true →
    (∀ mac ∈ macs, allLines (fun line => !lineMatches mac line) g = true) →
    applyMacs macs g = g := by
  intro macs
  induction macs with
  | nil => intro _ _ _; rfl
  | cons m ms ih =>
    intro hmac hbare hclean
    have h1 : removeMacroLines m g = g :=
      removeMacro_id_aux m (hmac m (by simp)) g.length (le_refl _) hbare
        (hclean m (by simp))
    show applyMacs ms (removeMacroLines m g) = g
    rw [h1]
    exact ih (fun mac hm => hmac mac (by simp [hm])) hbare
      (fun mac hm => hclean mac (by simp [hm]))

/-! ## Claim C10: duplicate macro removal -/

/-- C10 counterexample: the pass is not idempotent.  On the single file
`#define\n#define FOO\nFOO\n` the first call removes only the
`#define FOO` line, but in the result the bare `#define` line is followed by
whitespace and then `FOO`, so the pattern's `\s+` (which matches newlines)
produces a fresh cross-line match and a second call removes more text. -/
theorem c10_counterexample :
    remove_duplicate_macros ["FOO".data]
        (remove_duplicate_macros ["FOO".data]
          ["#define\n#define FOO\nFOO\n".data]) ≠
      remove_duplicate_macros ["FOO".data]
        ["#define\n#define FOO\nFOO\n".data] := by
  decide

/-- C10 (amended): after one call, no file contains any line beginning with
`#define`, whitespace, and a macro of the given set (lines defining a longer
macro name sharing the prefix are also stripped) — this holds for every
input; and the call is idempotent provided no macro of the set contains a
newline and no line of any file consists of `#define` followed only by
whitespace (the configuration that lets a match span lines). -/
theorem c10_macro_removal :
    (∀ macs files mac f, mac ∈ macs → f ∈ remove_duplicate_macros macs files →
      allLines (fun line => !lineMatches mac line) f = true) ∧
    (∀ macs files, (∀ mac ∈ macs, '\n' ∉ mac) →
      (∀ f ∈ files, noBareDefine f = true) →
      remove_duplicate_macros macs (remove_duplicate_macros macs files) =
        remove_duplicate_macros macs files) := by
  constructor
  · intro macs files mac f hmac hf
    rw [fold_map_comm] at hf
    obtain ⟨f0, hf0, rfl⟩ := List.mem_map.mp hf
    exact applyMacs_clean macs f0 mac hmac
  · intro macs files hmac hbare
    rw [fold_map_comm macs files, fold_map_comm macs
      (files.map (applyMacs macs)), List.map_map]
    apply List.map_congr_left
    intro f hf
    show applyMacs macs (applyMacs macs f) = applyMacs macs f
    exact applyMacs_id (applyMacs macs f) macs hmac
      (applyMacs_preserves _ (by decide) macs f (hbare f hf))
      (fun mac hm => applyMacs_clean macs f mac hm)

/-- Witness for `c10_macro_removal`: completeness on a file whose
`#define FOO 1` line is stripped, and idempotence of the whole operation on
that file. -/
theorem c10_macro_removal_witness :
    allLines (fun line => !lineMatches "FOO".data line) "a\n\nb\n".data = true ∧
    remove_duplicate_macros ["FOO".data]
        (remove_duplicate_macros ["FOO".data] ["a\n#define FOO 1\nb\n".data]) =
      remove_duplicate_macros ["FOO".data] ["a\n#define FOO 1\nb\n".data] :=
  ⟨c10_macro_removal.1 ["FOO".data] ["a\n#define FOO 1\nb\n".data] "FOO".data
     "a\n\nb\n".data (by decide) (by decide),
   c10_macro_removal.2 ["FOO".data] ["a\n#define FOO 1\nb\n".data]
     (by decide) (by decide)⟩
